import Mathlib

/-!
# The websocket hub of `internal/websocket/hub.go`

A shallow embedding of the hub: the set of registered clients, the three cases of
the dispatch loop `Hub.Run` (register, unregister, broadcast) and the two
producer entry points `Hub.BroadcastMessage` and `Hub.BroadcastToUser`.

Go channels are reference values, so the delivery channels live in a heap
(`State.chans`) and a client only holds an index into it.  A Go panic (send on a
closed channel, close of a closed or nil channel) ends the program; the steps
return `Except Panic State`.

The order in which `for client := range h.clients` visits the keys is not fixed by
the language; every loop of the model takes the visiting order as an argument and
the theorems hold for every order that enumerates the key set.

The `sync.RWMutex` is not part of the model: the steps are taken one at a time
(`Step`, `runSteps`).  Of the calls to `log.Printf` only the two that report a
failed `json.Marshal` are modelled (`LogLine`).  The channels on which a step
attempts a send and the channels it closes are recorded next to the steps
(`stepSends`, `stepCloses`).
-/

deriving instance DecidableEq for Except

namespace Websocket

/-- The bytes placed on a delivery channel (`[]byte`). -/
abbrev Payload := List Nat

/-- A Go channel of `[]byte`: the queued payloads (oldest first), the capacity the
channel was made with, and whether `close` has been called on it.  The consumer
side (the transport's write loop) is outside the model, so no receiver is ever
parked on a channel and a non-blocking send goes through exactly when the queue
has room. -/
structure Chan where
  buf : List Payload
  cap : Nat
  closed : Bool
deriving DecidableEq, Repr

/-- Modelled from the spec: the declaration of `Client` is not part of `hub.go`; the
hub only uses `client.userID` (the identity token, a string) and `client.send`
(the outbound delivery channel).  A value of this type stands for a `*Client`
pointer: `id` tells apart two clients that agree on both fields (the map is keyed
by pointer identity, not by identity token) and `send` is the reference to the
channel, an index into `State.chans`; a reference with no channel behind it is the
nil channel.  The hub never assigns to either field. -/
structure Client where
  id : Nat
  userID : String
  send : Nat
deriving DecidableEq, Repr

/-- The ways the code of `hub.go` can panic. -/
inductive Panic where
  | sendOnClosed
  | closeOfClosed
  | closeOfNil
deriving DecidableEq, Repr

/-- The state the hub works on: the key set of `Hub.clients` (a `map[*Client]bool`
whose values are only ever `true` and are never read) and the channels its
clients refer to.  The request channels `broadcast`, `register`, `unregister` of
`Hub` are unbuffered: a request sent on one of them is handed over directly to the
matching case of `Run`, which is how the steps below take it. -/
structure State where
  clients : Finset Client
  chans : List Chan
deriving DecidableEq

/-- The constructor `NewHub`: a hub with an empty client map.  The channels of the
clients that will register later are those of the heap `chans`. -/
def NewHub (chans : List Chan) : State :=
  { clients := ∅, chans := chans }

/-- The membership count `len(h.clients)`. -/
def State.count (s : State) : Nat := s.clients.card

/-- The channel a client's `send` field refers to, if any. -/
def State.chanOf (s : State) (client : Client) : Option Chan :=
  s.chans[client.send]?

/-- The send case of `select { case ch <- message: ... default: ... }`.
The result is `some` of the new heap when the send happened and `none` when the
`default` branch is taken: a nil channel is never ready, a full open channel is
not ready, a closed channel panics. -/
def trySend (chans : List Chan) (ref : Nat) (message : Payload) :
    Except Panic (Option (List Chan)) :=
  match chans[ref]? with
  | none => .ok none
  | some ch =>
    if ch.closed then .error .sendOnClosed
    else if ch.buf.length < ch.cap then
      .ok (some (chans.set ref { ch with buf := ch.buf ++ [message] }))
    else .ok none

/-- The builtin `close(ch)`. -/
def closeChan (chans : List Chan) (ref : Nat) : Except Panic (List Chan) :=
  match chans[ref]? with
  | none => .error .closeOfNil
  | some ch =>
    if ch.closed then .error .closeOfClosed
    else .ok (chans.set ref { ch with closed := true })

/-- The body shared by both fan-out loops:
`select { case client.send <- message: default: close(client.send); delete(h.clients, client) }`. -/
def deliver (message : Payload) (s : State) (client : Client) : Except Panic State :=
  match trySend s.chans client.send message with
  | .error e => .error e
  | .ok (some chans) => .ok { s with chans := chans }
  | .ok none =>
    match closeChan s.chans client.send with
    | .error e => .error e
    | .ok chans => .ok { clients := s.clients.erase client, chans := chans }

/-- The case `client := <-h.register` of `Run`: `h.clients[client] = true`. -/
def runRegister (s : State) (client : Client) : State :=
  { s with clients := insert client s.clients }

/-- The case `client := <-h.unregister` of `Run`: when the client is a key of the
map it is deleted and its channel is closed; otherwise nothing happens.  A panic of
`close` ends the program, so the deletion that came before it is not kept. -/
def runUnregister (s : State) (client : Client) : Except Panic State :=
  if client ∈ s.clients then
    match closeChan s.chans client.send with
    | .error e => .error e
    | .ok chans => .ok { clients := s.clients.erase client, chans := chans }
  else .ok s

/-- The case `message := <-h.broadcast` of `Run`: the loop over the clients, visited in
the order `order`. -/
def runBroadcast (message : Payload) : List Client → State → Except Panic State
  | [], s => .ok s
  | client :: rest, s =>
    match deliver message s client with
    | .error e => .error e
    | .ok s1 => runBroadcast message rest s1

/-- The function `BroadcastMessage` up to the send on `h.broadcast`: the payload handed to the
dispatch loop, or `none` when `json.Marshal` fails and the function returns
early.  `marshal messageType data` stands for
`json.Marshal(map[string]interface{}{"type": messageType, "data": data})`. -/
def BroadcastMessage {α : Type} (marshal : String → α → Option Payload)
    (messageType : String) (data : α) : Option Payload :=
  match marshal messageType data with
  | none => none
  | some jsonData => some jsonData

/-- One `BroadcastMessage` call followed by the broadcast case of `Run` that
receives what it sent. -/
def broadcastAndRun {α : Type} (marshal : String → α → Option Payload)
    (order : List Client) (messageType : String) (data : α) (s : State) :
    Except Panic State :=
  match BroadcastMessage marshal messageType data with
  | none => .ok s
  | some message => runBroadcast message order s

/-- The loop of `BroadcastToUser`. -/
def userLoop (userID : String) (jsonData : Payload) : List Client → State → Except Panic State
  | [], s => .ok s
  | client :: rest, s =>
    if client.userID = userID then
      match deliver jsonData s client with
      | .error e => .error e
      | .ok s1 => userLoop userID jsonData rest s1
    else userLoop userID jsonData rest s

/-- The function `BroadcastToUser`: the early return when `json.Marshal` fails,
otherwise the loop over the clients in the caller's own goroutine. -/
def BroadcastToUser {α : Type} (marshal : String → α → Option Payload)
    (order : List Client) (userID : String) (messageType : String) (data : α)
    (s : State) : Except Panic State :=
  match marshal messageType data with
  | none => .ok s
  | some jsonData => userLoop userID jsonData order s

/-- A visiting order of `range h.clients`: every key once. -/
def Enumerates (order : List Client) (s : State) : Prop :=
  order.Nodup ∧ ∀ c, c ∈ order ↔ c ∈ s.clients

instance (order : List Client) (s : State) : Decidable (Enumerates order s) := by
  unfold Enumerates
  exact decidable_of_iff (order.Nodup ∧ order.toFinset = s.clients)
    (by simp [Finset.ext_iff])

/-- What one delivery attempt does to an open channel: the payload joins the tail
when there is room, the channel is closed when it is full. -/
def Chan.offer (message : Payload) (ch : Chan) : Chan :=
  if ch.buf.length < ch.cap then { ch with buf := ch.buf ++ [message] }
  else { ch with closed := true }

/-- The two fan-out loops read as one loop with a filter; `runBroadcast` is the
instance whose filter accepts every client (`runBroadcast_eq_fan`) and `userLoop`
the one that compares the identity token (`userLoop_eq_fan`). -/
def fan (p : Client → Bool) (message : Payload) : List Client → State → Except Panic State
  | [], s => .ok s
  | client :: rest, s =>
    if p client then
      match deliver message s client with
      | .error e => .error e
      | .ok s1 => fan p message rest s1
    else fan p message rest s

/-- Distinct registered clients have distinct delivery channels. -/
def NoSharing (s : State) : Prop :=
  ∀ c ∈ s.clients, ∀ d ∈ s.clients, c.send = d.send → c = d

instance (s : State) : Decidable (NoSharing s) := by
  unfold NoSharing
  infer_instance

/-- The delivery channel of every registered client exists and is not closed. -/
def AllOpen (s : State) : Prop :=
  ∀ c ∈ s.clients, ∃ ch, s.chanOf c = some ch ∧ ch.closed = false

/-- What `Run` receives in one turn of its loop: a client on `h.register`, a
client on `h.unregister`, or a message on `h.broadcast` (with the order in which
that pass visits the clients). -/
inductive Request where
  | register (client : Client)
  | unregister (client : Client)
  | broadcast (message : Payload) (order : List Client)
deriving DecidableEq, Repr

/-- One turn of the `for { select { ... } }` loop of `Run`. -/
def runTurn (s : State) : Request → Except Panic State
  | .register client => .ok (runRegister s client)
  | .unregister client => runUnregister s client
  | .broadcast message order => runBroadcast message order s

/-- The loop of `Run` over the requests it receives, in the order it receives them. -/
def Run : List Request → State → Except Panic State
  | [], s => .ok s
  | r :: rest, s =>
    match runTurn s r with
    | .error e => .error e
    | .ok s1 => Run rest s1

/-- A register or unregister request. -/
def Request.isMembership : Request → Bool
  | .register _ => true
  | .unregister _ => true
  | .broadcast _ _ => false

/-- Whether a request is a register or unregister of the handle `h`. -/
def Request.isOn (h : Client) : Request → Bool
  | .register client => decide (client = h)
  | .unregister client => decide (client = h)
  | .broadcast _ _ => false

/-- The sequence contains an operation on `h` and the last such operation is a
register. -/
def lastIsRegister (h : Client) (reqs : List Request) : Bool :=
  match (reqs.filter (Request.isOn h)).getLast? with
  | some (.register _) => true
  | _ => false

/-- The channels that the unregister requests of a sequence refer to. -/
def unregisterRefs : List Request → List Nat
  | [] => []
  | .unregister client :: rest => client.send :: unregisterRefs rest
  | _ :: rest => unregisterRefs rest

/-- The handle was open before and is closed after. -/
def ClosedBetween (s s1 : State) (h : Client) : Prop :=
  (∃ ch, s.chanOf h = some ch ∧ ch.closed = false) ∧
  (∃ ch1, s1.chanOf h = some ch1 ∧ ch1.closed = true)

/-- A step of the registry: a turn of `Run` (register, unregister, broadcast), or a
call of `BroadcastToUser`, which is not a request to `Run` but does its fan-out
itself, in the goroutine of its caller. -/
inductive Step (α : Type) where
  | turn (r : Request)
  | toUser (order : List Client) (userID messageType : String) (data : α)

/-- One step of the registry. -/
def step {α : Type} (marshal : String → α → Option Payload) (s : State) :
    Step α → Except Panic State
  | .turn r => runTurn s r
  | .toUser order userID messageType data =>
    BroadcastToUser marshal order userID messageType data s

/-- A sequence of steps, taken one after the other; a panic ends it. -/
def runSteps {α : Type} (marshal : String → α → Option Payload) :
    List (Step α) → State → Except Panic State
  | [], s => .ok s
  | st :: rest, s =>
    match step marshal s st with
    | .error e => .error e
    | .ok s1 => runSteps marshal rest s1

/-- The visiting order of a step that ranges over the clients enumerates the
clients registered when the step is taken. -/
def Step.orderOk {α : Type} (s : State) : Step α → Bool
  | .turn (.broadcast _ order) => decide (Enumerates order s)
  | .turn _ => true
  | .toUser order _ _ _ => decide (Enumerates order s)

/-- Every step of the sequence that ranges over the clients visits, in some order,
exactly the clients registered at that point of the run. -/
def ordersValid {α : Type} (marshal : String → α → Option Payload) :
    List (Step α) → State → Bool
  | [], _ => true
  | st :: rest, s =>
    st.orderOk s &&
      match step marshal s st with
      | .error _ => true
      | .ok s1 => ordersValid marshal rest s1

/-- The channels of the handles that the register steps of a sequence register, one
entry per register step. -/
def registeredRefs {α : Type} : List (Step α) → List Nat
  | [] => []
  | .turn (.register client) :: rest => client.send :: registeredRefs rest
  | _ :: rest => registeredRefs rest

/-- The channels on which a fan-out loop (with filter `p`) evaluates the send case
`client.send <- message` of its `select`, up to and including a send that
panics. -/
def loopSends (p : Client → Bool) (message : Payload) : List Client → State → List Nat
  | [], _ => []
  | client :: rest, s =>
    if p client then
      client.send ::
        match deliver message s client with
        | .error _ => []
        | .ok s1 => loopSends p message rest s1
    else loopSends p message rest s

/-- The channel that one delivery attempt closes, if it takes the `default` branch
and the `close` goes through. -/
def deliverCloses (message : Payload) (s : State) (client : Client) : List Nat :=
  match trySend s.chans client.send message with
  | .ok none =>
    match closeChan s.chans client.send with
    | .ok _ => [client.send]
    | .error _ => []
  | _ => []

/-- The channels that a fan-out loop (with filter `p`) closes. -/
def loopCloses (p : Client → Bool) (message : Payload) : List Client → State → List Nat
  | [], _ => []
  | client :: rest, s =>
    if p client then
      deliverCloses message s client ++
        match deliver message s client with
        | .error _ => []
        | .ok s1 => loopCloses p message rest s1
    else loopCloses p message rest s

/-- The channels on which a step attempts to enqueue a payload. -/
def stepSends {α : Type} (marshal : String → α → Option Payload) (s : State) :
    Step α → List Nat
  | .turn (.register _) => []
  | .turn (.unregister _) => []
  | .turn (.broadcast message order) => loopSends (fun _ => true) message order s
  | .toUser order userID messageType data =>
    match marshal messageType data with
    | none => []
    | some jsonData => loopSends (fun c => decide (c.userID = userID)) jsonData order s

/-- The channels that a step closes. -/
def stepCloses {α : Type} (marshal : String → α → Option Payload) (s : State) :
    Step α → List Nat
  | .turn (.register _) => []
  | .turn (.unregister client) =>
    if client ∈ s.clients then
      match closeChan s.chans client.send with
      | .ok _ => [client.send]
      | .error _ => []
    else []
  | .turn (.broadcast message order) => loopCloses (fun _ => true) message order s
  | .toUser order userID messageType data =>
    match marshal messageType data with
    | none => []
    | some jsonData => loopCloses (fun c => decide (c.userID = userID)) jsonData order s

/-- No step of the run attempts to enqueue on a channel that is in `closed` or that
an earlier step of the run has closed. -/
def noWriteAfterClose {α : Type} (marshal : String → α → Option Payload) :
    List Nat → List (Step α) → State → Bool
  | _, [], _ => true
  | closed, st :: rest, s =>
    (stepSends marshal s st).all (fun r => decide (r ∉ closed)) &&
      match step marshal s st with
      | .error _ => true
      | .ok s1 => noWriteAfterClose marshal (stepCloses marshal s st ++ closed) rest s1

/-- A register step for the handle `h`. -/
def Step.isRegisterOf {α : Type} (h : Client) : Step α → Bool
  | .turn (.register client) => decide (client = h)
  | _ => false

/-- The lines that `BroadcastMessage` and `BroadcastToUser` write with `log.Printf`:
"Error marshaling broadcast message" and "Error marshaling user message". -/
inductive LogLine where
  | marshalBroadcast
  | marshalUser
deriving DecidableEq, Repr

/-- What `BroadcastMessage` writes to the log. -/
def broadcastMessageLog {α : Type} (marshal : String → α → Option Payload)
    (messageType : String) (data : α) : List LogLine :=
  match marshal messageType data with
  | none => [.marshalBroadcast]
  | some _ => []

/-- What `BroadcastMessage` returns to its caller: the function is declared without
a result, on both paths. -/
def broadcastMessageReturn {α : Type} (marshal : String → α → Option Payload)
    (messageType : String) (data : α) : Unit :=
  match marshal messageType data with
  | none => ()
  | some _ => ()

/-- What `BroadcastToUser` writes to the log. -/
def broadcastToUserLog {α : Type} (marshal : String → α → Option Payload)
    (messageType : String) (data : α) : List LogLine :=
  match marshal messageType data with
  | none => [.marshalUser]
  | some _ => []

/-- What the caller of `BroadcastToUser` gets back: the function is declared without
a result, so the caller sees a plain return, or the panic of the fan-out that ran
in its goroutine. -/
def broadcastToUserReturn {α : Type} (marshal : String → α → Option Payload)
    (order : List Client) (userID messageType : String) (data : α) (s : State) :
    Except Panic Unit :=
  match BroadcastToUser marshal order userID messageType data s with
  | .error e => .error e
  | .ok _ => .ok ()

/-- The broadcast fan-out of `Run` restricted to the clients whose identity token is
`userID`: the pass visits only those and does not touch the others. -/
def broadcastRestricted (userID : String) (message : Payload) (order : List Client)
    (s : State) : Except Panic State :=
  runBroadcast message (order.filter (fun c => decide (c.userID = userID))) s

/-- No channel holds more payloads than its capacity. -/
def CapOk (s : State) : Prop :=
  ∀ ch ∈ s.chans, ch.buf.length ≤ ch.cap

/-! ## Concrete clients, channels and an encoder for the worked examples -/

/-- A client of user `u1` on channel 0. -/
def alice : Client := { id := 1, userID := "u1", send := 0 }

/-- A second session of user `u1`, on channel 1. -/
def alice2 : Client := { id := 2, userID := "u1", send := 1 }

/-- A client of user `u2` on channel 2. -/
def bob : Client := { id := 3, userID := "u2", send := 2 }

/-- A client of user `u2` that was given the channel of `alice`. -/
def twin : Client := { id := 4, userID := "u2", send := 0 }

/-- An open channel with nothing queued. -/
def emptyChan (cap : Nat) : Chan := { buf := [], cap := cap, closed := false }

/-- An open channel holding `buf`. -/
def openChan (buf : List Payload) (cap : Nat) : Chan := { buf := buf, cap := cap, closed := false }

/-- A closed channel holding `buf`. -/
def closedChan (buf : List Payload) (cap : Nat) : Chan := { buf := buf, cap := cap, closed := true }

/-- An encoder that succeeds on every number. -/
def okMarshal (_ : String) (n : Nat) : Option Payload := some [n]

/-- An encoder that fails on every input. -/
def failMarshal (_ : String) (_ : Nat) : Option Payload := none

/-- A run that registers `alice` again after unregistering it and then broadcasts. -/
def reRegisterRun : List (Step Nat) :=
  [.turn (.register alice), .turn (.unregister alice), .turn (.register alice),
    .turn (.broadcast [7] [alice])]

/-- A run that registers `alice` and `twin`, who hold the same channel, once each,
unregisters `alice` and then broadcasts. -/
def sharedRun : List (Step Nat) :=
  [.turn (.register alice), .turn (.register twin), .turn (.unregister alice),
    .turn (.broadcast [7] [twin])]

/-- A run within the caller contract: `alice` and `bob` register once, on channels of
their own; two broadcasts and a targeted delivery follow, `alice` is evicted by the
second broadcast, unregistered afterwards, and `bob` is evicted by the last
broadcast. -/
def contractRun : List (Step Nat) :=
  [.turn (.register alice), .turn (.register bob), .turn (.broadcast [7] [alice, bob]),
    .toUser [bob, alice] "u2" "chat" 8, .turn (.broadcast [9] [alice, bob]),
    .turn (.unregister alice), .turn (.broadcast [10] [bob])]

/-- The channels of `contractRun` before anything is sent. -/
def contractHeap : List Chan := [emptyChan 1, emptyChan 1, emptyChan 3]

/-- A hub of `alice` and `bob` in which the channel of `alice` is already closed. -/
def closedAliceState : State :=
  { clients := {alice, bob}, chans := [closedChan [] 1, emptyChan 1, emptyChan 2] }

/-- A hub of `alice` and `bob` in which the channel of `alice` is already closed and
`bob` has no channel (its `send` is nil). -/
def nilBobState : State :=
  { clients := {alice, bob}, chans := [closedChan [] 1] }

/-! ## The delivery attempt and the fan-out loops -/

theorem trySend_open {chans : List Chan} {ref : Nat} {ch : Chan} (message : Payload)
    (hch : chans[ref]? = some ch) (hopen : ch.closed = false) :
    trySend chans ref message =
      .ok (if ch.buf.length < ch.cap
        then some (chans.set ref { ch with buf := ch.buf ++ [message] }) else none) := by
  unfold trySend
  rw [hch]
  simp only [hopen, Bool.false_eq_true, if_false]
  split <;> rfl

theorem closeChan_open {chans : List Chan} {ref : Nat} {ch : Chan}
    (hch : chans[ref]? = some ch) (hopen : ch.closed = false) :
    closeChan chans ref = .ok (chans.set ref { ch with closed := true }) := by
  unfold closeChan
  rw [hch]
  simp [hopen]

theorem deliver_open {s : State} {client : Client} {ch : Chan} (message : Payload)
    (hch : s.chans[client.send]? = some ch) (hopen : ch.closed = false) :
    deliver message s client =
      .ok { clients := if ch.buf.length < ch.cap then s.clients else s.clients.erase client,
            chans := s.chans.set client.send (ch.offer message) } := by
  unfold deliver
  rw [trySend_open message hch hopen]
  by_cases hroom : ch.buf.length < ch.cap
  · simp [hroom, Chan.offer]
  · simp [hroom, Chan.offer, closeChan_open hch hopen]

/-- A delivery attempt that does not panic found an open channel. -/
theorem deliver_ok_open {s s1 : State} {client : Client} {message : Payload}
    (h : deliver message s client = .ok s1) :
    ∃ ch, s.chans[client.send]? = some ch ∧ ch.closed = false := by
  unfold deliver trySend closeChan at h
  cases hch : s.chans[client.send]? with
  | none => simp [hch] at h
  | some ch =>
    refine ⟨ch, rfl, ?_⟩
    cases hc : ch.closed with
    | false => rfl
    | true => simp [hch, hc] at h

theorem runBroadcast_eq_fan (message : Payload) (order : List Client) (s : State) :
    runBroadcast message order s = fan (fun _ => true) message order s := by
  induction order generalizing s with
  | nil => rfl
  | cons c rest ih =>
    simp only [runBroadcast, fan, if_true]
    cases deliver message s c with
    | error e => rfl
    | ok s1 => exact ih s1

theorem userLoop_eq_fan (userID : String) (jsonData : Payload) (order : List Client)
    (s : State) :
    userLoop userID jsonData order s =
      fan (fun c => decide (c.userID = userID)) jsonData order s := by
  induction order generalizing s with
  | nil => rfl
  | cons c rest ih =>
    simp only [userLoop, fan, decide_eq_true_eq]
    by_cases hu : c.userID = userID
    · simp only [hu, if_true]
      cases deliver jsonData s c with
      | error e => rfl
      | ok s1 => exact ih s1
    · simp only [hu, if_false]
      exact ih s

theorem deliver_ok {s s1 : State} {client : Client} {message : Payload}
    (h : deliver message s client = .ok s1) :
    ∃ ch, s.chans[client.send]? = some ch ∧ ch.closed = false ∧
      s1 = { clients := if ch.buf.length < ch.cap then s.clients else s.clients.erase client,
             chans := s.chans.set client.send (ch.offer message) } := by
  obtain ⟨ch, hch, hopen⟩ := deliver_ok_open h
  refine ⟨ch, hch, hopen, ?_⟩
  rw [deliver_open message hch hopen] at h
  exact (Except.ok.inj h).symm

/-- The fan-out loop over clients with open, pairwise distinct channels: it does not
panic, it evicts exactly the visited clients whose channel was full, every visited
channel gets one delivery attempt and every other channel is left alone. -/
theorem fan_spec (p : Client → Bool) (message : Payload) :
    ∀ (order : List Client) (s : State), order.Nodup →
      (∀ c ∈ order, p c = true → ∃ ch, s.chans[c.send]? = some ch ∧ ch.closed = false) →
      (∀ c ∈ order, ∀ d ∈ order, p c = true → p d = true → c.send = d.send → c = d) →
      ∃ s1, fan p message order s = .ok s1 ∧
        (∀ c, c ∈ s1.clients ↔ c ∈ s.clients ∧
          ¬ (c ∈ order ∧ p c = true ∧
              ∃ ch, s.chans[c.send]? = some ch ∧ ¬ ch.buf.length < ch.cap)) ∧
        (∀ c ∈ order, p c = true → ∀ ch, s.chans[c.send]? = some ch →
          s1.chans[c.send]? = some (ch.offer message)) ∧
        (∀ i, (∀ c ∈ order, p c = true → c.send ≠ i) → s1.chans[i]? = s.chans[i]?) := by
  intro order
  induction order with
  | nil =>
    intro s _ _ _
    exact ⟨s, rfl, by simp, by simp, by simp⟩
  | cons c rest ih =>
    intro s hnd hopen hinj
    have hc : c ∉ rest := (List.nodup_cons.mp hnd).1
    have hrest : rest.Nodup := (List.nodup_cons.mp hnd).2
    have hinj' : ∀ x ∈ rest, ∀ y ∈ rest, p x = true → p y = true → x.send = y.send → x = y :=
      fun x hx y hy => hinj x (List.mem_cons_of_mem _ hx) y (List.mem_cons_of_mem _ hy)
    by_cases hp : p c = true
    · obtain ⟨ch, hch, hcl⟩ := hopen c (List.mem_cons_self _ _) hp
      have hne : ∀ d ∈ rest, p d = true → c.send ≠ d.send := by
        intro d hd hpd heq
        have := hinj c (List.mem_cons_self _ _) d (List.mem_cons_of_mem _ hd) hp hpd heq
        exact hc (this ▸ hd)
      have hlen : c.send < s.chans.length := by
        rcases List.getElem?_eq_some.mp hch with ⟨h, _⟩
        exact h
      obtain ⟨s2, hrun, hmem, hvis, hfr⟩ := ih
        { clients := if ch.buf.length < ch.cap then s.clients else s.clients.erase c,
          chans := s.chans.set c.send (ch.offer message) } hrest
        (by
          intro d hd hpd
          obtain ⟨chd, hchd, hcld⟩ := hopen d (List.mem_cons_of_mem _ hd) hpd
          exact ⟨chd, by simp [List.getElem?_set_ne (hne d hd hpd), hchd], hcld⟩)
        hinj'
      refine ⟨s2, ?_, ?_, ?_, ?_⟩
      · simp only [fan, hp, if_true, deliver_open message hch hcl]
        exact hrun
      · intro x
        rw [hmem x]
        by_cases hxc : x = c
        · subst hxc
          by_cases hroom : ch.buf.length < ch.cap
          · simp [hroom, hc, hch]
          · simp [hroom, hc, hch, hp]
        · have h1 : (x ∈ (if ch.buf.length < ch.cap then s.clients else s.clients.erase c))
              ↔ x ∈ s.clients := by
            split <;> simp [Finset.mem_erase, hxc]
          simp only [h1, List.mem_cons, hxc, false_or]
          by_cases hx : x ∈ rest ∧ p x = true
          · rw [List.getElem?_set_ne (hne x hx.1 hx.2)]
          · constructor
            · rintro ⟨ha, hb⟩
              exact ⟨ha, fun hh => hx ⟨hh.1, hh.2.1⟩⟩
            · rintro ⟨ha, hb⟩
              exact ⟨ha, fun hh => hx ⟨hh.1, hh.2.1⟩⟩
      · intro x hx hpx chx hchx
        rcases List.mem_cons.mp hx with rfl | hxr
        · rw [hfr x.send (fun d hd hpd => (hne d hd hpd).symm)]
          rw [hch] at hchx
          cases hchx
          simp [List.getElem?_set_self hlen]
        · exact hvis x hxr hpx chx (by rw [List.getElem?_set_ne (hne x hxr hpx)]; exact hchx)
      · intro i hi
        rw [hfr i (fun d hd hpd => hi d (List.mem_cons_of_mem _ hd) hpd)]
        exact List.getElem?_set_ne (hi c (List.mem_cons_self _ _) hp)
    · obtain ⟨s2, hrun, hmem, hvis, hfr⟩ := ih s hrest
        (fun d hd hpd => hopen d (List.mem_cons_of_mem _ hd) hpd) hinj'
      refine ⟨s2, ?_, ?_, ?_, ?_⟩
      · simp only [fan, hp, Bool.false_eq_true, if_false]
        exact hrun
      · intro x
        rw [hmem x]
        by_cases hxc : x = c
        · subst hxc
          simp [hp, hc]
        · simp [hxc]
      · intro x hx hpx chx hchx
        rcases List.mem_cons.mp hx with rfl | hxr
        · exact absurd hpx hp
        · exact hvis x hxr hpx chx hchx
      · intro i hi
        exact hfr i (fun d hd hpd => hi d (List.mem_cons_of_mem _ hd) hpd)

/-- A fan-out that did not panic met only open channels, when the visited clients
have pairwise distinct channels. -/
theorem fan_ok_open (p : Client → Bool) (message : Payload) :
    ∀ (order : List Client) (s s1 : State), order.Nodup →
      (∀ c ∈ order, ∀ d ∈ order, p c = true → p d = true → c.send = d.send → c = d) →
      fan p message order s = .ok s1 →
      ∀ c ∈ order, p c = true → ∃ ch, s.chans[c.send]? = some ch ∧ ch.closed = false := by
  intro order
  induction order with
  | nil => intro s s1 _ _ _ c hc; simp at hc
  | cons c rest ih =>
    intro s s1 hnd hinj hrun x hx hpx
    have hc : c ∉ rest := (List.nodup_cons.mp hnd).1
    have hrest : rest.Nodup := (List.nodup_cons.mp hnd).2
    have hinj' : ∀ x ∈ rest, ∀ y ∈ rest, p x = true → p y = true → x.send = y.send → x = y :=
      fun x hx y hy => hinj x (List.mem_cons_of_mem _ hx) y (List.mem_cons_of_mem _ hy)
    by_cases hp : p c = true
    · simp only [fan, hp, if_true] at hrun
      cases hd : deliver message s c with
      | error e => simp [hd] at hrun
      | ok s2 =>
        simp only [hd] at hrun
        obtain ⟨ch, hch, hcl, hs2⟩ := deliver_ok hd
        rcases List.mem_cons.mp hx with rfl | hxr
        · exact ⟨ch, hch, hcl⟩
        · obtain ⟨chx, hchx, hclx⟩ := ih s2 s1 hrest hinj' hrun x hxr hpx
          have hne : c.send ≠ x.send := by
            intro heq
            have := hinj c (List.mem_cons_self _ _) x (List.mem_cons_of_mem _ hxr) hp hpx heq
            exact hc (this ▸ hxr)
          refine ⟨chx, ?_, hclx⟩
          rw [hs2] at hchx
          simpa [List.getElem?_set_ne hne] using hchx
    · simp only [fan, hp, Bool.false_eq_true, if_false] at hrun
      rcases List.mem_cons.mp hx with rfl | hxr
      · exact absurd hpx hp
      · exact ih s s1 hrest hinj' hrun x hxr hpx

/-- The broadcast case of `Run` on a state whose registered clients have open,
pairwise distinct channels. -/
theorem runBroadcast_spec (message : Payload) (order : List Client) (s : State)
    (henum : Enumerates order s) (hopen : AllOpen s) (hns : NoSharing s) :
    ∃ s1, runBroadcast message order s = .ok s1 ∧
      (∀ c, c ∈ s1.clients ↔ c ∈ s.clients ∧
        ¬ ∃ ch, s.chanOf c = some ch ∧ ¬ ch.buf.length < ch.cap) ∧
      (∀ c ∈ s.clients, ∀ ch, s.chanOf c = some ch → s1.chanOf c = some (ch.offer message)) ∧
      (∀ i, (∀ c ∈ s.clients, c.send ≠ i) → s1.chans[i]? = s.chans[i]?) := by
  obtain ⟨hnd, hmem⟩ := henum
  obtain ⟨s1, hrun, h1, h2, h3⟩ := fan_spec (fun _ => true) message order s hnd
    (fun c hc _ => hopen c ((hmem c).mp hc))
    (fun c hc d hd _ _ h => hns c ((hmem c).mp hc) d ((hmem d).mp hd) h)
  refine ⟨s1, by rw [runBroadcast_eq_fan]; exact hrun, ?_, ?_, ?_⟩
  · intro c
    rw [h1 c]
    constructor
    · rintro ⟨ha, hb⟩
      exact ⟨ha, fun hh => hb ⟨(hmem c).mpr ha, rfl, hh⟩⟩
    · rintro ⟨ha, hb⟩
      exact ⟨ha, fun hh => hb hh.2.2⟩
  · intro c hc ch hch
    exact h2 c ((hmem c).mpr hc) rfl ch hch
  · intro i hi
    exact h3 i (fun c hc _ => hi c ((hmem c).mp hc))

theorem userLoop_no_match (userID : String) (jsonData : Payload) :
    ∀ (order : List Client) (s : State), (∀ c ∈ order, c.userID ≠ userID) →
      userLoop userID jsonData order s = .ok s := by
  intro order
  induction order with
  | nil => intro s _; rfl
  | cons c rest ih =>
    intro s h
    have hc : c.userID ≠ userID := h c (List.mem_cons_self _ _)
    simp only [userLoop, hc, if_false]
    exact ih s (fun d hd => h d (List.mem_cons_of_mem _ hd))

/-- A broadcast pass that did not panic, over clients with pairwise distinct
channels, found every registered channel open. -/
theorem runBroadcast_ok_allOpen {message : Payload} {order : List Client} {s s1 : State}
    (henum : Enumerates order s) (hns : NoSharing s)
    (hrun : runBroadcast message order s = .ok s1) : AllOpen s := by
  intro c hc
  rw [runBroadcast_eq_fan] at hrun
  exact fan_ok_open (fun _ => true) message order s s1 henum.1
    (fun x hx y hy _ _ h => hns x ((henum.2 x).mp hx) y ((henum.2 y).mp hy) h)
    hrun c ((henum.2 c).mpr hc) rfl

/-- The result of a broadcast pass that did not panic. -/
theorem runBroadcast_ok_spec {message : Payload} {order : List Client} {s s1 : State}
    (henum : Enumerates order s) (hns : NoSharing s)
    (hrun : runBroadcast message order s = .ok s1) :
    (∀ c, c ∈ s1.clients ↔ c ∈ s.clients ∧
      ¬ ∃ ch, s.chanOf c = some ch ∧ ¬ ch.buf.length < ch.cap) ∧
    (∀ c ∈ s.clients, ∀ ch, s.chanOf c = some ch → s1.chanOf c = some (ch.offer message)) ∧
    (∀ i, (∀ c ∈ s.clients, c.send ≠ i) → s1.chans[i]? = s.chans[i]?) := by
  obtain ⟨s2, hrun2, h⟩ := runBroadcast_spec message order s henum
    (runBroadcast_ok_allOpen henum hns hrun) hns
  rw [hrun] at hrun2
  cases hrun2
  exact h

theorem noSharing_of_subset {s s1 : State} (hsub : ∀ c ∈ s1.clients, c ∈ s.clients)
    (hns : NoSharing s) : NoSharing s1 :=
  fun c hc d hd h => hns c (hsub c hc) d (hsub d hd) h

theorem Run_append (reqs : List Request) (r : Request) :
    ∀ s, Run (reqs ++ [r]) s =
      match Run reqs s with
      | .error e => .error e
      | .ok s1 => runTurn s1 r := by
  induction reqs with
  | nil =>
    intro s
    simp only [List.nil_append, Run]
    cases runTurn s r <;> rfl
  | cons q rest ih =>
    intro s
    simp only [List.cons_append, Run]
    cases runTurn s q with
    | error e => rfl
    | ok s1 => exact ih s1

/-- Membership after one register or unregister turn. -/
theorem runTurn_membership {s s1 : State} {r : Request} (h : Client)
    (hm : r.isMembership = true) (hrun : runTurn s r = .ok s1) :
    (h ∈ s1.clients ↔
      if r.isOn h = true then (match r with | .register _ => True | _ => False)
      else h ∈ s.clients) := by
  cases r with
  | register c =>
    simp only [runTurn] at hrun
    cases hrun
    by_cases hc : c = h
    · simp [Request.isOn, hc, runRegister]
    · simp [Request.isOn, hc, runRegister, Ne.symm hc]
  | unregister c =>
    simp only [runTurn, runUnregister] at hrun
    by_cases hin : c ∈ s.clients
    · simp only [hin, if_true] at hrun
      cases hcl : closeChan s.chans c.send with
      | error e => simp [hcl] at hrun
      | ok chans =>
        simp only [hcl] at hrun
        cases hrun
        by_cases hc : c = h
        · simp [Request.isOn, hc]
        · simp [Request.isOn, hc, Finset.mem_erase, Ne.symm hc]
    · simp only [hin, if_false] at hrun
      cases hrun
      by_cases hc : c = h
      · subst hc
        simp [Request.isOn, hin]
      · simp [Request.isOn, hc]
  | broadcast m o => simp [Request.isMembership] at hm

theorem lastIsRegister_append (h : Client) (reqs : List Request) (r : Request) :
    lastIsRegister h (reqs ++ [r]) =
      if r.isOn h = true then (match r with | .register _ => true | _ => false)
      else lastIsRegister h reqs := by
  unfold lastIsRegister
  by_cases hon : r.isOn h = true
  · simp only [List.filter_append, List.filter_cons, List.filter_nil, hon, if_true,
      List.getLast?_append, List.getLast?_singleton, Option.or_some]
    cases r <;> rfl
  · simp [List.filter_append, List.filter_cons, hon]

/-- A sequence of register and unregister requests runs to the end when every
channel it unregisters is open at the start and no two of its unregister requests
refer to the same channel. -/
theorem Run_membership_total :
    ∀ (reqs : List Request) (s : State), (∀ r ∈ reqs, r.isMembership = true) →
      (unregisterRefs reqs).Nodup →
      (∀ i ∈ unregisterRefs reqs, ∃ ch, s.chans[i]? = some ch ∧ ch.closed = false) →
      ∃ s1, Run reqs s = .ok s1 := by
  intro reqs
  induction reqs with
  | nil => intro s _ _ _; exact ⟨s, rfl⟩
  | cons r rest ih =>
    intro s hm hnd hopen
    have hm' : ∀ q ∈ rest, q.isMembership = true := fun q hq => hm q (List.mem_cons_of_mem _ hq)
    cases r with
    | register c =>
      simp only [unregisterRefs] at hnd hopen
      simp only [Run, runTurn]
      exact ih (runRegister s c) hm' hnd hopen
    | unregister c =>
      simp only [unregisterRefs, List.nodup_cons] at hnd
      simp only [unregisterRefs] at hopen
      obtain ⟨ch, hch, hcl⟩ := hopen c.send (List.mem_cons_self _ _)
      simp only [Run, runTurn, runUnregister]
      by_cases hin : c ∈ s.clients
      · simp only [hin, if_true, closeChan_open hch hcl]
        refine ih _ hm' hnd.2 ?_
        intro i hi
        obtain ⟨chi, hchi, hcli⟩ := hopen i (List.mem_cons_of_mem _ hi)
        have hne : c.send ≠ i := fun heq => hnd.1 (heq ▸ hi)
        exact ⟨chi, by simp [List.getElem?_set_ne hne, hchi], hcli⟩
      · simp only [hin, if_false]
        exact ih s hm' hnd.2 (fun i hi => hopen i (List.mem_cons_of_mem _ hi))
    | broadcast m o =>
      have := hm (.broadcast m o) (List.mem_cons_self _ _)
      simp [Request.isMembership] at this

/-- The result of a fan-out that did not panic, over clients with pairwise distinct
channels. -/
theorem fan_ok_spec {p : Client → Bool} {message : Payload} {order : List Client}
    {s s1 : State} (henum : Enumerates order s) (hns : NoSharing s)
    (hrun : fan p message order s = .ok s1) :
    (∀ c, c ∈ s1.clients ↔ c ∈ s.clients ∧
      ¬ (p c = true ∧ ∃ ch, s.chanOf c = some ch ∧ ¬ ch.buf.length < ch.cap)) ∧
    (∀ c ∈ s.clients, p c = true → ∀ ch, s.chanOf c = some ch →
      s1.chanOf c = some (ch.offer message)) ∧
    (∀ i, (∀ c ∈ s.clients, p c = true → c.send ≠ i) → s1.chans[i]? = s.chans[i]?) := by
  have hinj : ∀ c ∈ order, ∀ d ∈ order, p c = true → p d = true → c.send = d.send → c = d :=
    fun c hc d hd _ _ h => hns c ((henum.2 c).mp hc) d ((henum.2 d).mp hd) h
  obtain ⟨s2, hrun2, h1, h2, h3⟩ := fan_spec p message order s henum.1
    (fan_ok_open p message order s s1 henum.1 hinj hrun) hinj
  rw [hrun] at hrun2
  cases hrun2
  refine ⟨?_, ?_, ?_⟩
  · intro c
    rw [h1 c]
    constructor
    · rintro ⟨ha, hb⟩
      exact ⟨ha, fun hh => hb ⟨(henum.2 c).mpr ha, hh.1, hh.2⟩⟩
    · rintro ⟨ha, hb⟩
      exact ⟨ha, fun hh => hb ⟨hh.2.1, hh.2.2⟩⟩
  · intro c hc hp ch hch
    exact h2 c ((henum.2 c).mpr hc) hp ch hch
  · intro i hi
    exact h3 i (fun c hc hp => hi c ((henum.2 c).mp hc) hp)

/-- A fan-out over clients with pairwise distinct channels leaves no client
registered whose channel it closed. -/
theorem fan_closed_evicted {p : Client → Bool} {message : Payload} {order : List Client}
    {s s1 : State} {h : Client} (henum : Enumerates order s) (hns : NoSharing s)
    (hrun : fan p message order s = .ok s1) (hcl : ClosedBetween s s1 h) :
    h ∉ s1.clients := by
  obtain ⟨hmem, hvis, hfr⟩ := fan_ok_spec henum hns hrun
  obtain ⟨⟨ch, hch, hopen⟩, ⟨ch1, hch1, hclosed⟩⟩ := hcl
  intro hin
  obtain ⟨hin0, hkeep⟩ := (hmem h).mp hin
  by_cases hp : p h = true
  · have hafter := hvis h hin0 hp ch hch
    rw [hch1] at hafter
    cases hafter
    by_cases hroom : ch.buf.length < ch.cap
    · simp [Chan.offer, hroom, hopen] at hclosed
    · exact hkeep ⟨hp, ch, hch, hroom⟩
  · have hsame : s1.chans[h.send]? = s.chans[h.send]? := by
      apply hfr
      intro c hc hpc heq
      have := hns c hc h hin0 heq
      exact hp (this ▸ hpc)
    have h1 : s1.chanOf h = s.chanOf h := hsame
    rw [h1, hch] at hch1
    cases hch1
    rw [hopen] at hclosed
    exact Bool.false_ne_true hclosed

/-- A fan-out never adds a client to the map. -/
theorem fan_subset (p : Client → Bool) (message : Payload) :
    ∀ (order : List Client) (s s1 : State), fan p message order s = .ok s1 →
      ∀ c ∈ s1.clients, c ∈ s.clients := by
  intro order
  induction order with
  | nil =>
    intro s s1 hrun c hc
    simp only [fan] at hrun
    cases hrun
    exact hc
  | cons x rest ih =>
    intro s s1 hrun c hc
    by_cases hp : p x = true
    · simp only [fan, hp, if_true] at hrun
      cases hd : deliver message s x with
      | error e => simp [hd] at hrun
      | ok s2 =>
        simp only [hd] at hrun
        obtain ⟨ch, _, _, hs2⟩ := deliver_ok hd
        have h2 := ih s2 s1 hrun c hc
        rw [hs2] at h2
        simp only at h2
        split at h2
        · exact h2
        · exact (Finset.mem_erase.mp h2).2
    · simp only [fan, hp, Bool.false_eq_true, if_false] at hrun
      exact ih s s1 hrun c hc

/-- Only a register step adds a client to the map. -/
theorem step_clients {α : Type} (marshal : String → α → Option Payload) {s s1 : State}
    {st : Step α} (hrun : step marshal s st = .ok s1) (c : Client) (hc : c ∈ s1.clients) :
    c ∈ s.clients ∨ st.isRegisterOf c = true := by
  cases st with
  | turn r =>
    cases r with
    | register x =>
      simp only [step, runTurn] at hrun
      cases hrun
      simp only [runRegister, Finset.mem_insert] at hc
      rcases hc with rfl | hc
      · right; simp [Step.isRegisterOf]
      · left; exact hc
    | unregister x =>
      left
      simp only [step, runTurn, runUnregister] at hrun
      by_cases hx : x ∈ s.clients
      · simp only [hx, if_true] at hrun
        cases hcl : closeChan s.chans x.send with
        | error e => simp [hcl] at hrun
        | ok chans =>
          simp only [hcl] at hrun
          cases hrun
          exact (Finset.mem_erase.mp hc).2
      · simp only [hx, if_false] at hrun
        cases hrun
        exact hc
    | broadcast m order =>
      left
      simp only [step, runTurn] at hrun
      rw [runBroadcast_eq_fan] at hrun
      exact fan_subset _ m order s s1 hrun c hc
  | toUser order userID messageType data =>
    left
    simp only [step, BroadcastToUser] at hrun
    cases hser : marshal messageType data with
    | none =>
      simp only [hser] at hrun
      cases hrun
      exact hc
    | some jsonData =>
      simp only [hser] at hrun
      rw [userLoop_eq_fan] at hrun
      exact fan_subset _ jsonData order s s1 hrun c hc

/-- The loop of `BroadcastToUser` is the broadcast loop of `Run` over the clients
that carry the identity token. -/
theorem userLoop_eq_restricted (userID : String) (jsonData : Payload) :
    ∀ (order : List Client) (s : State),
      userLoop userID jsonData order s = broadcastRestricted userID jsonData order s := by
  intro order
  induction order with
  | nil => intro s; rfl
  | cons c rest ih =>
    intro s
    unfold broadcastRestricted at ih ⊢
    by_cases hu : c.userID = userID
    · simp only [userLoop, hu, if_true, List.filter_cons, decide_True, runBroadcast]
      cases deliver jsonData s c with
      | error e => rfl
      | ok s1 => exact ih s1
    · simp only [userLoop, hu, if_false, List.filter_cons, decide_False, Bool.false_eq_true]
      exact ih s

/-- A fan-out attempts sends only on channels of clients it visits. -/
theorem loopSends_mem (p : Client → Bool) (message : Payload) :
    ∀ (order : List Client) (s : State) (r : Nat), r ∈ loopSends p message order s →
      ∃ c ∈ order, c.send = r := by
  intro order
  induction order with
  | nil => intro s r hr; simp [loopSends] at hr
  | cons x rest ih =>
    intro s r hr
    by_cases hp : p x = true
    · simp only [loopSends, hp, if_true, List.mem_cons] at hr
      rcases hr with rfl | hr
      · exact ⟨x, List.mem_cons_self _ _, rfl⟩
      · cases hd : deliver message s x with
        | error e => simp [hd] at hr
        | ok s2 =>
          simp only [hd] at hr
          obtain ⟨c, hc, hcr⟩ := ih s2 r hr
          exact ⟨c, List.mem_cons_of_mem _ hc, hcr⟩
    · simp only [loopSends, hp, Bool.false_eq_true, if_false] at hr
      obtain ⟨c, hc, hcr⟩ := ih s r hr
      exact ⟨c, List.mem_cons_of_mem _ hc, hcr⟩

/-- A delivery attempt that closes a channel closes the channel of its client and
removes that client. -/
theorem deliverCloses_removed {message : Payload} {s s1 : State} {client : Client}
    (hd : deliver message s client = .ok s1) {r : Nat}
    (hr : r ∈ deliverCloses message s client) : r = client.send ∧ client ∉ s1.clients := by
  obtain ⟨ch, hch, hopen, hs1⟩ := deliver_ok hd
  unfold deliverCloses at hr
  rw [trySend_open message hch hopen] at hr
  by_cases hroom : ch.buf.length < ch.cap
  · simp [hroom] at hr
  · simp only [hroom, if_false, closeChan_open hch hopen, List.mem_singleton] at hr
    refine ⟨hr, ?_⟩
    rw [hs1]
    simp [hroom]

/-- Every channel a completed fan-out closed belongs to a visited client that is no
longer registered afterwards. -/
theorem loopCloses_removed (p : Client → Bool) (message : Payload) :
    ∀ (order : List Client) (s s1 : State), fan p message order s = .ok s1 →
      ∀ r ∈ loopCloses p message order s, ∃ d ∈ order, d.send = r ∧ d ∉ s1.clients := by
  intro order
  induction order with
  | nil => intro s s1 _ r hr; simp [loopCloses] at hr
  | cons x rest ih =>
    intro s s1 hrun r hr
    by_cases hp : p x = true
    · simp only [fan, hp, if_true] at hrun
      simp only [loopCloses, hp, if_true, List.mem_append] at hr
      cases hd : deliver message s x with
      | error e => simp [hd] at hrun
      | ok s2 =>
        simp only [hd] at hrun hr
        rcases hr with hr | hr
        · obtain ⟨h1, h2⟩ := deliverCloses_removed hd hr
          exact ⟨x, List.mem_cons_self _ _, h1.symm,
            fun hin => h2 (fan_subset p message rest s2 s1 hrun x hin)⟩
        · obtain ⟨d, hd1, hd2, hd3⟩ := ih s2 s1 hrun r hr
          exact ⟨d, List.mem_cons_of_mem _ hd1, hd2, hd3⟩
    · simp only [fan, hp, Bool.false_eq_true, if_false] at hrun
      simp only [loopCloses, hp, Bool.false_eq_true, if_false] at hr
      obtain ⟨d, hd1, hd2, hd3⟩ := ih s s1 hrun r hr
      exact ⟨d, List.mem_cons_of_mem _ hd1, hd2, hd3⟩

/-- A step attempts sends only on channels of registered clients. -/
theorem stepSends_members {α : Type} (marshal : String → α → Option Payload) {s : State}
    {st : Step α} (hord : st.orderOk s = true) {r : Nat}
    (hr : r ∈ stepSends marshal s st) : ∃ c ∈ s.clients, c.send = r := by
  cases st with
  | turn q =>
    cases q with
    | register x => simp [stepSends] at hr
    | unregister x => simp [stepSends] at hr
    | broadcast m order =>
      simp only [Step.orderOk, decide_eq_true_eq] at hord
      simp only [stepSends] at hr
      obtain ⟨c, hc, hcr⟩ := loopSends_mem _ m order s r hr
      exact ⟨c, (hord.2 c).mp hc, hcr⟩
  | toUser order userID messageType data =>
    simp only [Step.orderOk, decide_eq_true_eq] at hord
    simp only [stepSends] at hr
    cases hser : marshal messageType data with
    | none => simp [hser] at hr
    | some jsonData =>
      simp only [hser] at hr
      obtain ⟨c, hc, hcr⟩ := loopSends_mem _ jsonData order s r hr
      exact ⟨c, (hord.2 c).mp hc, hcr⟩

/-- Every channel a completed step closed belongs to a client that was registered
before the step and is not registered after it. -/
theorem stepCloses_removed {α : Type} (marshal : String → α → Option Payload)
    {s s1 : State} {st : Step α} (hord : st.orderOk s = true)
    (hrun : step marshal s st = .ok s1) {r : Nat} (hr : r ∈ stepCloses marshal s st) :
    ∃ d ∈ s.clients, d.send = r ∧ d ∉ s1.clients := by
  cases st with
  | turn q =>
    cases q with
    | register x => simp [stepCloses] at hr
    | unregister x =>
      simp only [stepCloses] at hr
      simp only [step, runTurn, runUnregister] at hrun
      by_cases hx : x ∈ s.clients
      · simp only [hx, if_true] at hr hrun
        cases hcl : closeChan s.chans x.send with
        | error e => simp [hcl] at hrun
        | ok chans =>
          simp only [hcl, List.mem_singleton] at hr hrun
          cases hrun
          exact ⟨x, hx, hr.symm, by simp⟩
      · simp [hx] at hr
    | broadcast m order =>
      simp only [Step.orderOk, decide_eq_true_eq] at hord
      simp only [stepCloses] at hr
      simp only [step, runTurn] at hrun
      rw [runBroadcast_eq_fan] at hrun
      obtain ⟨d, hd1, hd2, hd3⟩ := loopCloses_removed _ m order s s1 hrun r hr
      exact ⟨d, (hord.2 d).mp hd1, hd2, hd3⟩
  | toUser order userID messageType data =>
    simp only [Step.orderOk, decide_eq_true_eq] at hord
    simp only [stepCloses] at hr
    simp only [step, BroadcastToUser] at hrun
    cases hser : marshal messageType data with
    | none => simp [hser] at hr
    | some jsonData =>
      simp only [hser] at hr hrun
      rw [userLoop_eq_fan] at hrun
      obtain ⟨d, hd1, hd2, hd3⟩ := loopCloses_removed _ jsonData order s s1 hrun r hr
      exact ⟨d, (hord.2 d).mp hd1, hd2, hd3⟩

theorem isRegisterOf_eq {α : Type} {st : Step α} {c : Client}
    (h : st.isRegisterOf c = true) : st = .turn (.register c) := by
  cases st with
  | turn q =>
    cases q with
    | register x =>
      simp only [Step.isRegisterOf, decide_eq_true_eq] at h
      rw [h]
    | unregister x => simp [Step.isRegisterOf] at h
    | broadcast m o => simp [Step.isRegisterOf] at h
  | toUser o u t d => simp [Step.isRegisterOf] at h

theorem registeredRefs_cons {α : Type} (st : Step α) (rest : List (Step α)) :
    (∀ r ∈ registeredRefs rest, r ∈ registeredRefs (st :: rest)) ∧
    ((registeredRefs (st :: rest)).Nodup → (registeredRefs rest).Nodup) ∧
    (∀ c, st.isRegisterOf c = true →
      c.send ∈ registeredRefs (st :: rest) ∧
      ((registeredRefs (st :: rest)).Nodup → c.send ∉ registeredRefs rest)) := by
  cases st with
  | turn q =>
    cases q with
    | register x =>
      refine ⟨fun r hr => ?_, fun h => ?_, fun c hc => ?_⟩
      · simp [registeredRefs, hr]
      · simp only [registeredRefs, List.nodup_cons] at h
        exact h.2
      · simp only [Step.isRegisterOf, decide_eq_true_eq] at hc
        subst hc
        refine ⟨by simp [registeredRefs], fun h => ?_⟩
        simp only [registeredRefs, List.nodup_cons] at h
        exact h.1
    | unregister x =>
      exact ⟨fun r hr => hr, fun h => h, fun c hc => by simp [Step.isRegisterOf] at hc⟩
    | broadcast m o =>
      exact ⟨fun r hr => hr, fun h => h, fun c hc => by simp [Step.isRegisterOf] at hc⟩
  | toUser o u t d =>
    exact ⟨fun r hr => hr, fun h => h, fun c hc => by simp [Step.isRegisterOf] at hc⟩

theorem stepCloses_register {α : Type} (marshal : String → α → Option Payload) (s : State)
    (c : Client) : stepCloses marshal s (.turn (.register c)) = [] := rfl

/-- The invariant behind the absence of writes after a close: no registered client and
no client still to be registered refers to a channel that was closed, and the
registered clients do not share channels among themselves or with a client still to
be registered. -/
theorem noWrite_inv {α : Type} (marshal : String → α → Option Payload) :
    ∀ (steps : List (Step α)) (s : State) (closed : List Nat),
      ordersValid marshal steps s = true → (registeredRefs steps).Nodup → NoSharing s →
      (∀ c ∈ s.clients, c.send ∉ closed) →
      (∀ r ∈ registeredRefs steps, r ∉ closed) →
      (∀ r ∈ registeredRefs steps, ∀ c ∈ s.clients, c.send ≠ r) →
      noWriteAfterClose marshal closed steps s = true := by
  intro steps
  induction steps with
  | nil => intro s closed _ _ _ _ _ _; rfl
  | cons st rest ih =>
    intro s closed hord hnd hns hk1 hk2 hk4
    obtain ⟨hsub, hnd', hreg⟩ := registeredRefs_cons st rest
    simp only [ordersValid, Bool.and_eq_true] at hord
    obtain ⟨hok, hordrest⟩ := hord
    simp only [noWriteAfterClose, Bool.and_eq_true, List.all_eq_true, decide_eq_true_eq]
    refine ⟨?_, ?_⟩
    · intro r hr
      obtain ⟨c, hc, hcr⟩ := stepSends_members marshal hok hr
      exact hcr ▸ hk1 c hc
    · cases hrun : step marshal s st with
      | error e => rfl
      | ok s1 =>
        simp only [hrun] at hordrest ⊢
        have hmem := step_clients marshal hrun
        have hcl : ∀ r ∈ stepCloses marshal s st, ∃ d ∈ s.clients, d.send = r ∧ d ∉ s1.clients :=
          fun r hr => stepCloses_removed marshal hok hrun hr
        refine ih s1 _ hordrest (hnd' hnd) ?_ ?_ ?_ ?_
        · intro c hc d hd hcd
          rcases hmem c hc with hc0 | hcreg
          · rcases hmem d hd with hd0 | hdreg
            · exact hns c hc0 d hd0 hcd
            · exact absurd hcd (hk4 d.send (hreg d hdreg).1 c hc0)
          · rcases hmem d hd with hd0 | hdreg
            · exact absurd hcd.symm (hk4 c.send (hreg c hcreg).1 d hd0)
            · have h1 := isRegisterOf_eq hcreg
              have h2 := isRegisterOf_eq hdreg
              rw [h1] at h2
              cases h2
              rfl
        · intro c hc hin
          rcases List.mem_append.mp hin with hin | hin
          · obtain ⟨d, hd, hdr, hdout⟩ := hcl c.send hin
            rcases hmem c hc with hc0 | hcreg
            · have := hns d hd c hc0 hdr
              exact hdout (this ▸ hc)
            · rw [isRegisterOf_eq hcreg, stepCloses_register] at hin
              simp at hin
          · rcases hmem c hc with hc0 | hcreg
            · exact hk1 c hc0 hin
            · exact hk2 c.send (hreg c hcreg).1 hin
        · intro r hr hin
          rcases List.mem_append.mp hin with hin | hin
          · obtain ⟨d, hd, hdr, _⟩ := hcl r hin
            exact hk4 r (hsub r hr) d hd hdr
          · exact hk2 r (hsub r hr) hin
        · intro r hr c hc hcr
          rcases hmem c hc with hc0 | hcreg
          · exact hk4 r (hsub r hr) c hc0 hcr
          · exact (hreg c hcreg).2 hnd (hcr ▸ hr)

/-- A fan-out over registered clients with open, pairwise distinct channels does not
panic and leaves every client that is still registered with an open channel. -/
theorem fan_safe (p : Client → Bool) (message : Payload) (order : List Client) (s : State)
    (henum : Enumerates order s) (hns : NoSharing s) (hopen : AllOpen s) :
    ∃ s1, fan p message order s = .ok s1 ∧ AllOpen s1 ∧
      (∀ i, (∀ c ∈ s.clients, c.send ≠ i) → s1.chans[i]? = s.chans[i]?) := by
  obtain ⟨s1, hrun, _⟩ := fan_spec p message order s henum.1
    (fun c hc _ => hopen c ((henum.2 c).mp hc))
    (fun c hc d hd _ _ h => hns c ((henum.2 c).mp hc) d ((henum.2 d).mp hd) h)
  obtain ⟨hmem, hvis, hfr⟩ := fan_ok_spec henum hns hrun
  refine ⟨s1, hrun, ?_, fun i hi => hfr i (fun c hc _ => hi c hc)⟩
  intro c hc
  obtain ⟨hc0, hkeep⟩ := (hmem c).mp hc
  obtain ⟨ch, hch, hcl⟩ := hopen c hc0
  by_cases hp : p c = true
  · have hroom : ch.buf.length < ch.cap := by
      by_contra hfull
      exact hkeep ⟨hp, ch, hch, hfull⟩
    refine ⟨ch.offer message, hvis c hc0 hp ch hch, ?_⟩
    simp [Chan.offer, hroom, hcl]
  · refine ⟨ch, ?_, hcl⟩
    have : s1.chans[c.send]? = s.chans[c.send]? := by
      apply hfr
      intro d hd hpd heq
      exact hp ((hns d hd c hc0 heq) ▸ hpd)
    exact this.trans hch

/-- A step taken in a state whose registered clients have open, pairwise distinct
channels, registering at most a client whose channel is open, does not panic and
keeps every registered channel open. -/
theorem step_safe {α : Type} (marshal : String → α → Option Payload) {s : State}
    {st : Step α} (hord : st.orderOk s = true) (hns : NoSharing s) (hopen : AllOpen s)
    (hreg : ∀ x, st.isRegisterOf x = true →
      ∃ ch, s.chans[x.send]? = some ch ∧ ch.closed = false) :
    ∃ s1, step marshal s st = .ok s1 ∧ AllOpen s1 ∧
      (∀ i, (∀ c ∈ s.clients, c.send ≠ i) → s1.chans[i]? = s.chans[i]?) := by
  cases st with
  | turn q =>
    cases q with
    | register x =>
      refine ⟨runRegister s x, rfl, ?_, fun _ _ => rfl⟩
      intro c hc
      simp only [runRegister, Finset.mem_insert] at hc
      rcases hc with rfl | hc
      · exact hreg c (by simp [Step.isRegisterOf])
      · exact hopen c hc
    | unregister x =>
      by_cases hx : x ∈ s.clients
      · obtain ⟨ch, hch, hcl⟩ := hopen x hx
        refine ⟨{ clients := s.clients.erase x,
                  chans := s.chans.set x.send { ch with closed := true } }, ?_, ?_, ?_⟩
        · simp only [step, runTurn, runUnregister, hx, if_true]
          rw [closeChan_open hch hcl]
        · intro c hc
          obtain ⟨hne, hc0⟩ := Finset.mem_erase.mp hc
          obtain ⟨chc, hchc, hclc⟩ := hopen c hc0
          refine ⟨chc, ?_, hclc⟩
          have hsend : x.send ≠ c.send := fun heq => hne (hns c hc0 x hx heq.symm)
          simp only [State.chanOf] at hchc ⊢
          rw [List.getElem?_set_ne hsend]
          exact hchc
        · intro i hi
          exact List.getElem?_set_ne (hi x hx)
      · exact ⟨s, by simp [step, runTurn, runUnregister, hx], hopen, fun _ _ => rfl⟩
    | broadcast m order =>
      simp only [Step.orderOk, decide_eq_true_eq] at hord
      obtain ⟨s1, hrun, h1, h2⟩ := fan_safe (fun _ => true) m order s hord hns hopen
      exact ⟨s1, by simp only [step, runTurn]; rw [runBroadcast_eq_fan]; exact hrun, h1, h2⟩
  | toUser order userID messageType data =>
    simp only [Step.orderOk, decide_eq_true_eq] at hord
    cases hser : marshal messageType data with
    | none =>
      exact ⟨s, by simp [step, BroadcastToUser, hser], hopen, fun _ _ => rfl⟩
    | some jsonData =>
      obtain ⟨s1, hrun, h1, h2⟩ :=
        fan_safe (fun c => decide (c.userID = userID)) jsonData order s hord hns hopen
      refine ⟨s1, ?_, h1, h2⟩
      simp only [step, BroadcastToUser, hser]
      rw [userLoop_eq_fan]
      exact hrun

/-- A step keeps channels unshared when it registers at most a client whose channel
no registered client has. -/
theorem step_noSharing {α : Type} (marshal : String → α → Option Payload) {s s1 : State}
    {st : Step α} (hrun : step marshal s st = .ok s1) (hns : NoSharing s)
    (hfresh : ∀ x, st.isRegisterOf x = true → ∀ c ∈ s.clients, c.send ≠ x.send) :
    NoSharing s1 := by
  intro c hc d hd hcd
  rcases step_clients marshal hrun c hc with hc0 | hcreg
  · rcases step_clients marshal hrun d hd with hd0 | hdreg
    · exact hns c hc0 d hd0 hcd
    · exact absurd hcd (hfresh d hdreg c hc0)
  · rcases step_clients marshal hrun d hd with hd0 | hdreg
    · exact absurd hcd.symm (hfresh c hcreg d hd0)
    · have h1 := isRegisterOf_eq hcreg
      have h2 := isRegisterOf_eq hdreg
      rw [h1] at h2
      cases h2
      rfl

/-- A run in which every register step brings a channel of its own, open at the
start, never panics and keeps every registered channel open. -/
theorem run_safe {α : Type} (marshal : String → α → Option Payload) :
    ∀ (steps : List (Step α)) (s : State),
      ordersValid marshal steps s = true → (registeredRefs steps).Nodup →
      NoSharing s → AllOpen s →
      (∀ r ∈ registeredRefs steps, ∀ c ∈ s.clients, c.send ≠ r) →
      (∀ r ∈ registeredRefs steps, ∃ ch, s.chans[r]? = some ch ∧ ch.closed = false) →
      ∃ s1, runSteps marshal steps s = .ok s1 ∧ AllOpen s1 ∧ NoSharing s1 := by
  intro steps
  induction steps with
  | nil => intro s _ _ hns hopen _ _; exact ⟨s, rfl, hopen, hns⟩
  | cons st rest ih =>
    intro s hord hnd hns hopen hk4 hk6
    obtain ⟨hsub, hnd', hreg⟩ := registeredRefs_cons st rest
    simp only [ordersValid, Bool.and_eq_true] at hord
    obtain ⟨hok, hordrest⟩ := hord
    obtain ⟨s1, hrun, hopen1, hfr⟩ := step_safe marshal hok hns hopen
      (fun x hx => hk6 x.send (hreg x hx).1)
    have hns1 : NoSharing s1 := step_noSharing marshal hrun hns
      (fun x hx c hc => hk4 x.send (hreg x hx).1 c hc)
    simp only [hrun] at hordrest
    obtain ⟨s2, hrun2, h2⟩ := ih s1 hordrest (hnd' hnd) hns1 hopen1
      (by
        intro r hr c hc hcr
        rcases step_clients marshal hrun c hc with hc0 | hcreg
        · exact hk4 r (hsub r hr) c hc0 hcr
        · exact (hreg c hcreg).2 hnd (hcr ▸ hr))
      (by
        intro r hr
        obtain ⟨ch, hch, hcl⟩ := hk6 r (hsub r hr)
        refine ⟨ch, ?_, hcl⟩
        rw [hfr r (fun c hc => hk4 r (hsub r hr) c hc)]
        exact hch)
    exact ⟨s2, by simp only [runSteps, hrun]; exact hrun2, h2⟩

theorem registeredRefs_append {α : Type} (pre post : List (Step α)) :
    registeredRefs (pre ++ post) = registeredRefs pre ++ registeredRefs post := by
  induction pre with
  | nil => rfl
  | cons st rest ih =>
    cases st with
    | turn q =>
      cases q with
      | register x => simp [registeredRefs, ih]
      | unregister x => simpa [registeredRefs] using ih
      | broadcast m o => simpa [registeredRefs] using ih
    | toUser o u t d => simpa [registeredRefs] using ih

theorem ordersValid_of_append {α : Type} (marshal : String → α → Option Payload) :
    ∀ (pre post : List (Step α)) (s : State),
      ordersValid marshal (pre ++ post) s = true → ordersValid marshal pre s = true := by
  intro pre
  induction pre with
  | nil => intro post s _; rfl
  | cons st rest ih =>
    intro post s h
    simp only [List.cons_append, ordersValid, Bool.and_eq_true] at h ⊢
    refine ⟨h.1, ?_⟩
    cases hrun : step marshal s st with
    | error e => rfl
    | ok s1 =>
      have h2 := h.2
      simp only [hrun] at h2 ⊢
      exact ih post s1 h2

/-- Over registered clients with pairwise distinct channels the outcome of a
completed fan-out does not depend on the visiting order. -/
theorem fan_order_indep (p : Client → Bool) (message : Payload) {o1 o2 : List Client}
    {s s1 : State} (hns : NoSharing s) (h1 : Enumerates o1 s) (h2 : Enumerates o2 s)
    (hrun : fan p message o1 s = .ok s1) : fan p message o2 s = .ok s1 := by
  have hinj : ∀ (o : List Client), Enumerates o s →
      ∀ c ∈ o, ∀ d ∈ o, p c = true → p d = true → c.send = d.send → c = d :=
    fun o ho c hc d hd _ _ h => hns c ((ho.2 c).mp hc) d ((ho.2 d).mp hd) h
  have hopen1 := fan_ok_open p message o1 s s1 h1.1 (hinj o1 h1) hrun
  obtain ⟨s2, hrun2, _⟩ := fan_spec p message o2 s h2.1
    (fun c hc hp => hopen1 c ((h1.2 c).mpr ((h2.2 c).mp hc)) hp) (hinj o2 h2)
  obtain ⟨hm1, hv1, hf1⟩ := fan_ok_spec h1 hns hrun
  obtain ⟨hm2, hv2, hf2⟩ := fan_ok_spec h2 hns hrun2
  have hcl : s2.clients = s1.clients := Finset.ext (fun c => by rw [hm1 c, hm2 c])
  have hch : s2.chans = s1.chans := by
    apply List.ext_getElem?
    intro i
    by_cases hi : ∃ c ∈ s.clients, p c = true ∧ c.send = i
    · obtain ⟨c, hc, hp, rfl⟩ := hi
      obtain ⟨ch, hch, _⟩ := hopen1 c ((h1.2 c).mpr hc) hp
      have e1 := hv1 c hc hp ch hch
      have e2 := hv2 c hc hp ch hch
      simp only [State.chanOf] at e1 e2
      rw [e1, e2]
    · have hni : ∀ c ∈ s.clients, p c = true → c.send ≠ i :=
        fun c hc hp heq => hi ⟨c, hc, hp, heq⟩
      rw [hf1 i hni, hf2 i hni]
  rw [hrun2]
  cases s1
  cases s2
  simp only at hcl hch
  rw [hcl, hch]

theorem closeChan_ok {chans chans1 : List Chan} {ref : Nat}
    (h : closeChan chans ref = .ok chans1) :
    ∃ ch, chans[ref]? = some ch ∧ ch.closed = false ∧
      chans1 = chans.set ref { ch with closed := true } := by
  unfold closeChan at h
  cases hch : chans[ref]? with
  | none => simp [hch] at h
  | some ch =>
    simp only [hch] at h
    cases hc : ch.closed with
    | true => simp [hc] at h
    | false =>
      simp only [hc, Bool.false_eq_true, if_false] at h
      exact ⟨ch, rfl, hc, (Except.ok.inj h).symm⟩

theorem capOk_set {s : State} {i : Nat} {ch : Chan} (hcap : CapOk s)
    (hch : ch.buf.length ≤ ch.cap) (clients : Finset Client) :
    CapOk { clients := clients, chans := s.chans.set i ch } := by
  intro x hx
  rcases List.mem_or_eq_of_mem_set hx with hx | rfl
  · exact hcap x hx
  · exact hch

/-- One delivery attempt keeps every queue within its capacity. -/
theorem deliver_capOk {message : Payload} {s s1 : State} {client : Client}
    (hd : deliver message s client = .ok s1) (hcap : CapOk s) : CapOk s1 := by
  obtain ⟨ch, hch, _, hs1⟩ := deliver_ok hd
  have hin : ch ∈ s.chans := List.getElem?_mem hch
  rw [hs1]
  apply capOk_set hcap
  unfold Chan.offer
  split
  · simp only [List.length_append, List.length_singleton]
    omega
  · exact hcap ch hin

theorem fan_capOk (p : Client → Bool) (message : Payload) :
    ∀ (order : List Client) (s s1 : State), fan p message order s = .ok s1 →
      CapOk s → CapOk s1 := by
  intro order
  induction order with
  | nil =>
    intro s s1 hrun hcap
    simp only [fan] at hrun
    cases hrun
    exact hcap
  | cons x rest ih =>
    intro s s1 hrun hcap
    by_cases hp : p x = true
    · simp only [fan, hp, if_true] at hrun
      cases hd : deliver message s x with
      | error e => simp [hd] at hrun
      | ok s2 =>
        simp only [hd] at hrun
        exact ih s2 s1 hrun (deliver_capOk hd hcap)
    · simp only [fan, hp, Bool.false_eq_true, if_false] at hrun
      exact ih s s1 hrun hcap

/-- Every step keeps every queue within its capacity. -/
theorem step_capOk {α : Type} (marshal : String → α → Option Payload) {s s1 : State}
    {st : Step α} (hrun : step marshal s st = .ok s1) (hcap : CapOk s) : CapOk s1 := by
  cases st with
  | turn q =>
    cases q with
    | register x =>
      simp only [step, runTurn] at hrun
      cases hrun
      exact hcap
    | unregister x =>
      simp only [step, runTurn, runUnregister] at hrun
      by_cases hx : x ∈ s.clients
      · simp only [hx, if_true] at hrun
        cases hcl : closeChan s.chans x.send with
        | error e => simp [hcl] at hrun
        | ok chans =>
          simp only [hcl] at hrun
          cases hrun
          obtain ⟨ch, hch, _, hset⟩ := closeChan_ok hcl
          rw [hset]
          have hle : ({ ch with closed := true } : Chan).buf.length ≤
              ({ ch with closed := true } : Chan).cap := hcap ch (List.getElem?_mem hch)
          exact capOk_set hcap hle _
      · simp only [hx, if_false] at hrun
        cases hrun
        exact hcap
    | broadcast m order =>
      simp only [step, runTurn] at hrun
      rw [runBroadcast_eq_fan] at hrun
      exact fan_capOk _ m order s s1 hrun hcap
  | toUser order userID messageType data =>
    simp only [step, BroadcastToUser] at hrun
    cases hser : marshal messageType data with
    | none =>
      simp only [hser] at hrun
      cases hrun
      exact hcap
    | some jsonData =>
      simp only [hser] at hrun
      rw [userLoop_eq_fan] at hrun
      exact fan_capOk _ jsonData order s s1 hrun hcap

/-- A full channel keeps its queue through a completed fan-out, and every visited
client that refers to it is evicted with the channel closed. -/
theorem fan_full (p : Client → Bool) (message : Payload) (i : Nat) :
    ∀ (order : List Client) (s s1 : State) (ch : Chan), fan p message order s = .ok s1 →
      s.chans[i]? = some ch → ¬ ch.buf.length < ch.cap →
      ∃ ch1, s1.chans[i]? = some ch1 ∧ ch1.buf = ch.buf ∧ ch1.cap = ch.cap ∧
        (ch.closed = true → ch1.closed = true) ∧
        (∀ c ∈ order, p c = true → c.send = i → c ∉ s1.clients ∧ ch1.closed = true) := by
  intro order
  induction order with
  | nil =>
    intro s s1 ch hrun hch _
    simp only [fan] at hrun
    cases hrun
    exact ⟨ch, hch, rfl, rfl, fun h => h, fun c hc => by simp at hc⟩
  | cons x rest ih =>
    intro s s1 ch hrun hch hfull
    by_cases hp : p x = true
    · simp only [fan, hp, if_true] at hrun
      cases hd : deliver message s x with
      | error e => simp [hd] at hrun
      | ok s2 =>
        simp only [hd] at hrun
        obtain ⟨chx, hchx, hopenx, hs2⟩ := deliver_ok hd
        by_cases hxi : x.send = i
        · rw [hxi, hch] at hchx
          cases hchx
          have hlen : i < s.chans.length := by
            rcases List.getElem?_eq_some.mp hch with ⟨hl, _⟩
            exact hl
          have hch2 : s2.chans[i]? = some { ch with closed := true } := by
            rw [hs2, hxi]
            simp [List.getElem?_set_self hlen, Chan.offer, hfull]
          have hx2 : x ∉ s2.clients := by
            rw [hs2]
            simp [hfull]
          obtain ⟨ch1, h1, h2, h3, h4, h5⟩ := ih s2 s1 _ hrun hch2 hfull
          refine ⟨ch1, h1, h2, h3, fun _ => h4 rfl, ?_⟩
          intro c hc hpc hci
          rcases List.mem_cons.mp hc with rfl | hcr
          · exact ⟨fun hin => hx2 (fan_subset p message rest s2 s1 hrun c hin), h4 rfl⟩
          · exact h5 c hcr hpc hci
        · have hch2 : s2.chans[i]? = some ch := by
            rw [hs2]
            simp only
            rw [List.getElem?_set_ne hxi]
            exact hch
          obtain ⟨ch1, h1, h2, h3, h4, h5⟩ := ih s2 s1 ch hrun hch2 hfull
          refine ⟨ch1, h1, h2, h3, h4, ?_⟩
          intro c hc hpc hci
          rcases List.mem_cons.mp hc with rfl | hcr
          · exact absurd hci hxi
          · exact h5 c hcr hpc hci
    · simp only [fan, hp, Bool.false_eq_true, if_false] at hrun
      obtain ⟨ch1, h1, h2, h3, h4, h5⟩ := ih s s1 ch hrun hch hfull
      refine ⟨ch1, h1, h2, h3, h4, ?_⟩
      intro c hc hpc hci
      rcases List.mem_cons.mp hc with rfl | hcr
      · exact absurd hpc hp
      · exact h5 c hcr hpc hci

/-- A registered client whose channel is full is evicted by a completed fan-out
that visits it, and its channel is closed with the queue it had. -/
theorem fan_evicts_full {p : Client → Bool} {message : Payload} {order : List Client}
    {s s1 : State} {h : Client} {ch : Chan} (henum : Enumerates order s)
    (hrun : fan p message order s = .ok s1) (hmem : h ∈ s.clients) (hp : p h = true)
    (hch : s.chanOf h = some ch) (hfull : ¬ ch.buf.length < ch.cap) :
    h ∉ s1.clients ∧
      s1.chanOf h = some { buf := ch.buf, cap := ch.cap, closed := true } := by
  obtain ⟨ch1, h1, h2, h3, _, h5⟩ := fan_full p message h.send order s s1 ch hrun hch hfull
  obtain ⟨hout, hcl⟩ := h5 h ((henum.2 h).mpr hmem) hp rfl
  refine ⟨hout, ?_⟩
  show s1.chans[h.send]? = _
  rw [h1]
  cases ch1
  simp only at h2 h3 hcl
  rw [h2, h3, hcl]

/-- Over registered clients with pairwise distinct channels, when the channel of
every client the filter accepts is open, a fan-out completes in every visiting
order, with the same state. -/
theorem fan_complete_indep (p : Client → Bool) (message : Payload) {o1 o2 : List Client}
    {s : State} (hns : NoSharing s) (h1 : Enumerates o1 s) (h2 : Enumerates o2 s)
    (hopen : ∀ c ∈ s.clients, p c = true → ∃ ch, s.chanOf c = some ch ∧ ch.closed = false) :
    ∃ s1, fan p message o1 s = .ok s1 ∧ fan p message o2 s = .ok s1 := by
  obtain ⟨s1, hrun, _⟩ := fan_spec p message o1 s h1.1
    (fun c hc hp => hopen c ((h1.2 c).mp hc) hp)
    (fun c hc d hd _ _ h => hns c ((h1.2 c).mp hc) d ((h1.2 d).mp hd) h)
  exact ⟨s1, hrun, fan_order_indep p message hns h1 h2 hrun⟩

/-! ## The claims -/

/-- C1 (amended): in every hub state in which every registered handle's delivery
channel is open with at least one free slot and distinct registered handles have
distinct delivery channels, and for every (messageType, data) that serializes to
`message`, one `BroadcastMessage` followed by the broadcast case of `Run` does not
panic, leaves the membership set unchanged, appends exactly `message` to the tail of
every registered handle's channel (the same payload for all of them), and closes no
channel. -/
theorem broadcast_fan_out {α : Type} (marshal : String → α → Option Payload)
    (order : List Client) (messageType : String) (data : α) (message : Payload) (s : State)
    (hser : marshal messageType data = some message)
    (henum : Enumerates order s)
    (hfree : ∀ c ∈ s.clients, ∃ ch, s.chanOf c = some ch ∧ ch.closed = false ∧
      ch.buf.length < ch.cap)
    (hns : NoSharing s) :
    ∃ s1, broadcastAndRun marshal order messageType data s = .ok s1 ∧
      s1.clients = s.clients ∧
      (∀ c ∈ s.clients, ∀ ch, s.chanOf c = some ch →
        s1.chanOf c = some { ch with buf := ch.buf ++ [message] }) ∧
      (∀ (i : Nat) (ch1 : Chan), s1.chans[i]? = some ch1 → ch1.closed = true →
        ∃ ch, s.chans[i]? = some ch ∧ ch.closed = true) := by
  have hopen : AllOpen s := fun c hc => by
    obtain ⟨ch, h1, h2, _⟩ := hfree c hc
    exact ⟨ch, h1, h2⟩
  obtain ⟨s1, hrun, hmem, hvis, hfr⟩ := runBroadcast_spec message order s henum hopen hns
  have hroom : ∀ c ∈ s.clients, ∀ ch, s.chanOf c = some ch → ch.buf.length < ch.cap := by
    intro c hc ch hch
    obtain ⟨ch2, h1, _, h3⟩ := hfree c hc
    rw [hch] at h1
    cases h1
    exact h3
  refine ⟨s1, ?_, ?_, ?_, ?_⟩
  · simp only [broadcastAndRun, BroadcastMessage, hser]
    exact hrun
  · ext c
    rw [hmem c]
    constructor
    · exact fun h => h.1
    · exact fun h => ⟨h, fun ⟨ch, hch, hfull⟩ => hfull (hroom c h ch hch)⟩
  · intro c hc ch hch
    rw [hvis c hc ch hch]
    simp [Chan.offer, hroom c hc ch hch]
  · intro i ch1 hch1 hcl
    by_cases hi : ∃ c ∈ s.clients, c.send = i
    · obtain ⟨c, hc, rfl⟩ := hi
      obtain ⟨ch, h1, h2, h3⟩ := hfree c hc
      have := hvis c hc ch h1
      simp only [State.chanOf] at this
      rw [this] at hch1
      cases hch1
      simp [Chan.offer, h3, h2] at hcl
    · have := hfr i (fun c hc heq => hi ⟨c, hc, heq⟩)
      rw [this] at hch1
      exact ⟨ch1, hch1, hcl⟩

/-- Witness for C1: two clients on their own empty channels; both stay registered
and the channel of `alice` holds the one payload. -/
theorem broadcast_fan_out_witness :
    ∃ s1, broadcastAndRun okMarshal [alice, bob] "chat" 7
        { clients := {alice, bob}, chans := [emptyChan 1, emptyChan 1, emptyChan 2] } = .ok s1 ∧
      s1.clients = {alice, bob} ∧ s1.chanOf alice = some { buf := [[7]], cap := 1, closed := false } := by
  obtain ⟨s1, h1, h2, h3, _⟩ := broadcast_fan_out okMarshal [alice, bob] "chat" 7 [7]
    { clients := {alice, bob}, chans := [emptyChan 1, emptyChan 1, emptyChan 2] } rfl
    (by decide)
    (by
      intro c hc
      simp only [Finset.mem_insert, Finset.mem_singleton] at hc
      rcases hc with rfl | rfl
      · exact ⟨emptyChan 1, rfl, rfl, by decide⟩
      · exact ⟨emptyChan 2, rfl, rfl, by decide⟩)
    (by decide)
  exact ⟨s1, h1, h2, h3 alice (by decide) (emptyChan 1) rfl⟩

/-- Counterexample for C1 as stated: `alice` and `twin` are registered on the same
open channel with one free slot.  The hypotheses of the claim hold, yet the pass
delivers to `alice`, then finds the channel full for `twin`, closes it and evicts
`twin`: the membership set changed and a channel was closed. -/
theorem broadcast_fan_out_counterexample :
    Enumerates [alice, twin] { clients := {alice, twin}, chans := [emptyChan 1] } ∧
    (∀ c ∈ ({alice, twin} : Finset Client), ∃ ch,
      State.chanOf { clients := {alice, twin}, chans := [emptyChan 1] } c = some ch ∧
        ch.closed = false ∧ ch.buf.length < ch.cap) ∧
    broadcastAndRun okMarshal [alice, twin] "chat" 7
        { clients := {alice, twin}, chans := [emptyChan 1] } =
      .ok { clients := {alice}, chans := [closedChan [[7]] 1] } ∧
    ({alice} : Finset Client) ≠ {alice, twin} ∧
    (closedChan [[7]] 1).closed = true := by
  refine ⟨by decide, ?_, by decide, by decide, rfl⟩
  intro c hc
  simp only [Finset.mem_insert, Finset.mem_singleton] at hc
  rcases hc with rfl | rfl <;> exact ⟨emptyChan 1, rfl, rfl, by decide⟩

/-- C2 (amended): in every hub state in which every registered handle's delivery
channel is open (it exists and is not closed) and distinct registered handles have
distinct delivery channels, for every payload and visiting order the broadcast case
of `Run` does not panic, and afterwards every registered handle whose channel was
full is absent from the membership set with its channel closed and its queue as it
was, while every registered handle whose channel had room is still a member, its
channel still open, with the payload appended to its queue. -/
theorem eviction_under_pressure (message : Payload) (order : List Client) (s : State)
    (henum : Enumerates order s) (hopen : AllOpen s) (hns : NoSharing s) :
    ∃ s1, runBroadcast message order s = .ok s1 ∧
      (∀ c ∈ s.clients, ∀ ch, s.chanOf c = some ch → ¬ ch.buf.length < ch.cap →
        c ∉ s1.clients ∧
          s1.chanOf c = some { buf := ch.buf, cap := ch.cap, closed := true }) ∧
      (∀ c ∈ s.clients, ∀ ch, s.chanOf c = some ch → ch.buf.length < ch.cap →
        c ∈ s1.clients ∧
          s1.chanOf c = some { buf := ch.buf ++ [message], cap := ch.cap, closed := false }) := by
  obtain ⟨s1, hrun, hmem, hvis, _⟩ := runBroadcast_spec message order s henum hopen hns
  refine ⟨s1, hrun, ?_, ?_⟩
  · intro c hc ch hch hfull
    refine ⟨fun h => ((hmem c).mp h).2 ⟨ch, hch, hfull⟩, ?_⟩
    rw [hvis c hc ch hch]
    simp [Chan.offer, hfull]
  · intro c hc ch hch hroom
    obtain ⟨ch2, h1, h2⟩ := hopen c hc
    rw [hch] at h1
    cases h1
    refine ⟨(hmem c).mpr ⟨hc, ?_⟩, ?_⟩
    · rintro ⟨ch3, h3, hfull⟩
      rw [hch] at h3
      cases h3
      exact hfull hroom
    · rw [hvis c hc ch hch]
      simp [Chan.offer, hroom, ← h2]

/-- Witness for C2: `alice` has a full channel and `bob` has room; `alice` is
evicted and closed, `bob` stays and receives the payload although `alice` was
evicted in the same pass. -/
theorem eviction_under_pressure_witness :
    ∃ s1, runBroadcast [7] [bob, alice]
        { clients := {alice, bob}, chans := [openChan [[1]] 1, emptyChan 1, emptyChan 2] } = .ok s1 ∧
      alice ∉ s1.clients ∧ s1.chanOf alice = some (closedChan [[1]] 1) ∧
      bob ∈ s1.clients ∧ s1.chanOf bob = some (openChan [[7]] 2) := by
  obtain ⟨s1, h1, h2, h3⟩ := eviction_under_pressure [7] [bob, alice]
    { clients := {alice, bob}, chans := [openChan [[1]] 1, emptyChan 1, emptyChan 2] }
    (by decide)
    (by
      intro c hc
      simp only [Finset.mem_insert, Finset.mem_singleton] at hc
      rcases hc with rfl | rfl
      · exact ⟨openChan [[1]] 1, rfl, rfl⟩
      · exact ⟨emptyChan 2, rfl, rfl⟩)
    (by decide)
  have ha := h2 alice (by decide) (openChan [[1]] 1) rfl (by decide)
  have hb := h3 bob (by decide) (emptyChan 2) rfl (by decide)
  exact ⟨s1, h1, ha.1, ha.2, hb.1, hb.2⟩

/-- Counterexample for C2 as stated (every hub state).  First, `alice` and `twin`
share one open channel with one free slot: `twin`, whose channel was open and not
full, is evicted and the channel of `alice`, who stays, ends up closed.  Second,
`alice` is registered with a closed channel: the pass panics on the send, so
nothing the claim promises for the state after the step is delivered. -/
theorem eviction_under_pressure_counterexample :
    (runBroadcast [7] [alice, twin] { clients := {alice, twin}, chans := [emptyChan 1] } =
        .ok { clients := {alice}, chans := [closedChan [[7]] 1] } ∧
      State.chanOf { clients := {alice, twin}, chans := [emptyChan 1] } twin =
        some (emptyChan 1) ∧
      twin ∉ ({alice} : Finset Client)) ∧
    (runBroadcast [7] [bob, alice]
        { clients := {alice, bob}, chans := [closedChan [] 1, emptyChan 1, emptyChan 2] } =
      .error .sendOnClosed) := by
  decide

/-- C3 (amended): for every hub state and every member `h` whose delivery channel
is open (it exists and is not closed), the unregister case of `Run` does not panic,
removes `h` from the membership set, closes the channel of `h` (queue unchanged),
decreases the membership count by exactly one, leaves the membership of every other
handle unchanged and leaves the channel state of every handle that does not share
the channel of `h` unchanged. -/
theorem unregister_present (s : State) (h : Client) (ch : Chan)
    (hmem : h ∈ s.clients) (hch : s.chanOf h = some ch) (hopen : ch.closed = false) :
    ∃ s1, runUnregister s h = .ok s1 ∧
      h ∉ s1.clients ∧
      s1.chanOf h = some { buf := ch.buf, cap := ch.cap, closed := true } ∧
      s1.count + 1 = s.count ∧
      (∀ c, c ≠ h → (c ∈ s1.clients ↔ c ∈ s.clients)) ∧
      (∀ c : Client, c.send ≠ h.send → s1.chanOf c = s.chanOf c) := by
  have hlen : h.send < s.chans.length := by
    rcases List.getElem?_eq_some.mp hch with ⟨hl, _⟩
    exact hl
  refine ⟨{ clients := s.clients.erase h,
            chans := s.chans.set h.send { ch with closed := true } }, ?_, ?_, ?_, ?_, ?_, ?_⟩
  · simp only [runUnregister, hmem, if_true]
    rw [closeChan_open hch hopen]
  · simp
  · simp [State.chanOf, List.getElem?_set_self hlen]
  · simp only [State.count]
    exact Finset.card_erase_add_one hmem
  · intro c hc
    simp [Finset.mem_erase, hc]
  · intro c hc
    simp only [State.chanOf]
    exact List.getElem?_set_ne (Ne.symm hc)

/-- Witness for C3: unregistering `alice` from a hub of two. -/
theorem unregister_present_witness :
    ∃ s1, runUnregister { clients := {alice, bob}, chans := [emptyChan 1, emptyChan 1, emptyChan 2] }
        alice = .ok s1 ∧ alice ∉ s1.clients ∧ s1.chanOf alice = some (closedChan [] 1) ∧
      s1.count + 1 = 2 ∧ s1.chanOf bob = some (emptyChan 2) := by
  obtain ⟨s1, h1, h2, h3, h4, _, h6⟩ := unregister_present
    { clients := {alice, bob}, chans := [emptyChan 1, emptyChan 1, emptyChan 2] } alice
    (emptyChan 1) (by decide) rfl rfl
  exact ⟨s1, h1, h2, h3, h4, h6 bob (by decide)⟩

/-- Counterexample for C3 as stated (every hub state and member).  First, a member
whose channel is already closed: the step panics with a close of a closed channel.
Second, `alice` and `twin` share a channel: unregistering `alice` changes the
channel state of the other handle `twin` from open to closed. -/
theorem unregister_present_counterexample :
    (runUnregister { clients := {alice}, chans := [closedChan [] 1] } alice =
      .error .closeOfClosed) ∧
    (runUnregister { clients := {alice, twin}, chans := [emptyChan 1] } alice =
        .ok { clients := {twin}, chans := [closedChan [] 1] } ∧
      State.chanOf { clients := {alice, twin}, chans := [emptyChan 1] } twin =
        some (emptyChan 1) ∧
      State.chanOf { clients := {twin}, chans := [closedChan [] 1] } twin =
        some (closedChan [] 1)) := by
  decide

/-- C4: for every hub state and handle `h`, when `h` is not a member the unregister
case of `Run` returns the very same state (membership set and all channels) without
a panic; and unregistering `h` twice in a row gives the same outcome as
unregistering it once. -/
theorem unregister_idempotent (s : State) (h : Client) :
    (h ∉ s.clients → runUnregister s h = .ok s) ∧
    (runUnregister s h >>= fun s1 => runUnregister s1 h) = runUnregister s h := by
  have habs : ∀ t : State, h ∉ t.clients → runUnregister t h = .ok t := by
    intro t ht
    simp [runUnregister, ht]
  refine ⟨habs s, ?_⟩
  by_cases hmem : h ∈ s.clients
  · simp only [runUnregister, hmem, if_true]
    cases closeChan s.chans h.send with
    | error e => rfl
    | ok chans =>
      show runUnregister { clients := s.clients.erase h, chans := chans } h = _
      exact habs _ (by simp)
  · rw [habs s hmem]
    exact habs s hmem

/-- Witness for C4: unregistering `alice`, who is not registered, changes nothing,
even though the channel of `alice` is already closed. -/
theorem unregister_idempotent_witness :
    runUnregister { clients := {bob}, chans := [closedChan [[1]] 1, emptyChan 1, emptyChan 2] }
        alice =
      .ok { clients := {bob}, chans := [closedChan [[1]] 1, emptyChan 1, emptyChan 2] } :=
  (unregister_idempotent
    { clients := {bob}, chans := [closedChan [[1]] 1, emptyChan 1, emptyChan 2] } alice).1
    (by decide)

/-- C5: for every hub state and handle `h` that is not a member, the register case
of `Run` (a total function: it cannot fail) makes `h` a member, increases the
membership count by exactly one, leaves the membership of every other handle
unchanged and leaves every channel, that of `h` included, unchanged. -/
theorem register_absent (s : State) (h : Client) (habs : h ∉ s.clients) :
    h ∈ (runRegister s h).clients ∧
    (runRegister s h).count = s.count + 1 ∧
    (∀ c, c ≠ h → (c ∈ (runRegister s h).clients ↔ c ∈ s.clients)) ∧
    (runRegister s h).chans = s.chans ∧
    (∀ c : Client, (runRegister s h).chanOf c = s.chanOf c) := by
  refine ⟨?_, ?_, ?_, rfl, fun _ => rfl⟩
  · simp [runRegister]
  · simp only [runRegister, State.count]
    exact Finset.card_insert_of_not_mem habs
  · intro c hc
    simp [runRegister, hc]

/-- Witness for C5: registering `bob` next to `alice`. -/
theorem register_absent_witness :
    bob ∈ (runRegister { clients := {alice}, chans := [emptyChan 1] } bob).clients ∧
    (runRegister { clients := {alice}, chans := [emptyChan 1] } bob).count = 1 + 1 ∧
    (runRegister { clients := {alice}, chans := [emptyChan 1] } bob).chans = [emptyChan 1] := by
  obtain ⟨h1, h2, _, h4, _⟩ :=
    register_absent { clients := {alice}, chans := [emptyChan 1] } bob (by decide)
  exact ⟨h1, h2, h4⟩

/-- C6 (amended): for every hub state, identity token `userID` and (messageType,
data) that serializes to `jsonData`, when the channel of every registered handle
with that token is open and none of those handles shares its channel with another
registered handle, `BroadcastToUser` does not panic and: every registered handle
with that token and a free slot stays a member and gets `jsonData` appended once,
every registered handle with that token and a full channel is evicted and its
channel closed, and every registered handle with a different token keeps its
membership and its channel state, whatever that state is. -/
theorem broadcastToUser_targets {α : Type} (marshal : String → α → Option Payload)
    (order : List Client) (userID messageType : String) (data : α) (jsonData : Payload)
    (s : State)
    (hser : marshal messageType data = some jsonData)
    (henum : Enumerates order s)
    (hopen : ∀ c ∈ s.clients, c.userID = userID →
      ∃ ch, s.chanOf c = some ch ∧ ch.closed = false)
    (hown : ∀ c ∈ s.clients, c.userID = userID → ∀ d ∈ s.clients, d.send = c.send → d = c) :
    ∃ s1, BroadcastToUser marshal order userID messageType data s = .ok s1 ∧
      (∀ c ∈ s.clients, c.userID = userID → ∀ ch, s.chanOf c = some ch →
        (ch.buf.length < ch.cap → c ∈ s1.clients ∧
          s1.chanOf c = some { buf := ch.buf ++ [jsonData], cap := ch.cap, closed := false }) ∧
        (¬ ch.buf.length < ch.cap → c ∉ s1.clients ∧
          s1.chanOf c = some { buf := ch.buf, cap := ch.cap, closed := true })) ∧
      (∀ c ∈ s.clients, c.userID ≠ userID → c ∈ s1.clients ∧ s1.chanOf c = s.chanOf c) := by
  obtain ⟨hnd, hmem⟩ := henum
  obtain ⟨s1, hrun, h1, h2, h3⟩ :=
    fan_spec (fun c => decide (c.userID = userID)) jsonData order s hnd
      (fun c hc hp => hopen c ((hmem c).mp hc) (of_decide_eq_true hp))
      (fun c hc d hd _ hpd h =>
        hown d ((hmem d).mp hd) (of_decide_eq_true hpd) c ((hmem c).mp hc) h)
  refine ⟨s1, ?_, ?_, ?_⟩
  · simp only [BroadcastToUser, hser]
    rw [userLoop_eq_fan]
    exact hrun
  · intro c hc hu ch hch
    have hp : decide (c.userID = userID) = true := decide_eq_true hu
    obtain ⟨ch2, hch2, hcl⟩ := hopen c hc hu
    rw [hch] at hch2
    cases hch2
    have hafter := h2 c ((hmem c).mpr hc) hp ch hch
    constructor
    · intro hroom
      refine ⟨(h1 c).mpr ⟨hc, ?_⟩, ?_⟩
      · rintro ⟨_, _, ch3, h3a, hfull⟩
        have h3b : s.chanOf c = some ch3 := h3a
        rw [hch] at h3b
        cases h3b
        exact hfull hroom
      · show s1.chans[c.send]? = _
        rw [hafter]
        simp [Chan.offer, hroom, ← hcl]
    · intro hfull
      refine ⟨fun hin => ((h1 c).mp hin).2 ⟨(hmem c).mpr hc, hp, ch, hch, hfull⟩, ?_⟩
      show s1.chans[c.send]? = _
      rw [hafter]
      simp [Chan.offer, hfull]
  · intro c hc hu
    refine ⟨(h1 c).mpr ⟨hc, ?_⟩, ?_⟩
    · rintro ⟨_, hp, _⟩
      exact hu (of_decide_eq_true hp)
    · apply h3 c.send
      intro d hd hp heq
      have hdu : d.userID = userID := of_decide_eq_true hp
      have := hown d ((hmem d).mp hd) hdu c hc heq.symm
      exact hu (this ▸ hdu)

/-- Witness for C6: tokens `u1`, `u1`, `u2`; the first `u1` handle receives, the
second (full) is evicted, and the `u2` handle, although full, is left alone. -/
theorem broadcastToUser_targets_witness :
    ∃ s1, BroadcastToUser okMarshal [bob, alice, alice2] "u1" "chat" 7
        { clients := {alice, alice2, bob},
          chans := [emptyChan 1, openChan [[1]] 1, openChan [[2]] 1] } = .ok s1 ∧
      (alice ∈ s1.clients ∧ s1.chanOf alice = some (openChan [[7]] 1)) ∧
      (alice2 ∉ s1.clients ∧ s1.chanOf alice2 = some (closedChan [[1]] 1)) ∧
      (bob ∈ s1.clients ∧ s1.chanOf bob = some (openChan [[2]] 1)) := by
  obtain ⟨s1, h1, h2, h3⟩ := broadcastToUser_targets okMarshal [bob, alice, alice2] "u1" "chat" 7
    [7] { clients := {alice, alice2, bob},
          chans := [emptyChan 1, openChan [[1]] 1, openChan [[2]] 1] } rfl
    (by decide)
    (by
      intro c hc hu
      simp only [Finset.mem_insert, Finset.mem_singleton] at hc
      rcases hc with rfl | rfl | rfl
      · exact ⟨emptyChan 1, rfl, rfl⟩
      · exact ⟨openChan [[1]] 1, rfl, rfl⟩
      · exact absurd hu (by decide))
    (by decide)
  exact ⟨s1, h1, (h2 alice (by decide) rfl (emptyChan 1) rfl).1 (by decide),
    (h2 alice2 (by decide) rfl (openChan [[1]] 1) rfl).2 (by decide),
    h3 bob (by decide) (by decide)⟩

/-- Counterexample for C6 as stated (every hub state).  First, `twin` has token
`u2` but shares the channel of `alice`: a delivery to `u1` changes the channel
contents of `twin`.  Second, the `u1` handle `alice` is registered with a closed
channel: the call panics on the send. -/
theorem broadcastToUser_targets_counterexample :
    (BroadcastToUser okMarshal [alice, twin] "u1" "chat" 7
        { clients := {alice, twin}, chans := [emptyChan 1] } =
        .ok { clients := {alice, twin}, chans := [openChan [[7]] 1] } ∧
      twin.userID ≠ "u1" ∧
      State.chanOf { clients := {alice, twin}, chans := [emptyChan 1] } twin =
        some (emptyChan 1) ∧
      State.chanOf { clients := {alice, twin}, chans := [openChan [[7]] 1] } twin =
        some (openChan [[7]] 1)) ∧
    (BroadcastToUser okMarshal [bob, alice] "u1" "chat" 7
        { clients := {alice, bob}, chans := [closedChan [] 1, emptyChan 1, emptyChan 2] } =
      .error .sendOnClosed) := by
  decide

/-- C7: for every hub state and identity token `userID` that no registered handle
carries, `BroadcastToUser` returns the very same state (membership set and every
channel) without a panic, whether or not the message serializes. -/
theorem broadcastToUser_no_match {α : Type} (marshal : String → α → Option Payload)
    (order : List Client) (userID messageType : String) (data : α) (s : State)
    (henum : Enumerates order s) (hnone : ∀ c ∈ s.clients, c.userID ≠ userID) :
    BroadcastToUser marshal order userID messageType data s = .ok s := by
  unfold BroadcastToUser
  cases marshal messageType data with
  | none => rfl
  | some jsonData =>
    exact userLoop_no_match userID jsonData order s
      (fun c hc => hnone c ((henum.2 c).mp hc))

/-- Witness for C7: nobody has token `u2`; the state, a full and a closed channel
included, is returned as it was. -/
theorem broadcastToUser_no_match_witness :
    BroadcastToUser okMarshal [alice, alice2] "u2" "chat" 7
        { clients := {alice, alice2}, chans := [openChan [[1]] 1, closedChan [] 1] } =
      .ok { clients := {alice, alice2}, chans := [openChan [[1]] 1, closedChan [] 1] } :=
  broadcastToUser_no_match okMarshal [alice, alice2] "u2" "chat" 7
    { clients := {alice, alice2}, chans := [openChan [[1]] 1, closedChan [] 1] }
    (by decide) (by decide)

/-- C8 (amended): for every hub state in which distinct registered handles have
distinct delivery channels, every registered handle `h` and every two messages
broadcast one after the other (serializing to `m1` and `m2`), if both passes
complete and `h` is still a member after the second, then the queue of `h` is its
previous queue followed by `m1` and then `m2`, with nothing in between. -/
theorem broadcast_order {α : Type} (marshal : String → α → Option Payload)
    (order1 order2 : List Client) (type1 type2 : String) (data1 data2 : α)
    (m1 m2 : Payload) (s s1 s2 : State) (h : Client)
    (hser1 : marshal type1 data1 = some m1) (hser2 : marshal type2 data2 = some m2)
    (hns : NoSharing s)
    (henum1 : Enumerates order1 s)
    (hrun1 : broadcastAndRun marshal order1 type1 data1 s = .ok s1)
    (henum2 : Enumerates order2 s1)
    (hrun2 : broadcastAndRun marshal order2 type2 data2 s1 = .ok s2)
    (hmem : h ∈ s.clients) (hstill : h ∈ s2.clients) :
    ∃ ch, s.chanOf h = some ch ∧
      s2.chanOf h = some { buf := ch.buf ++ [m1, m2], cap := ch.cap, closed := ch.closed } := by
  simp only [broadcastAndRun, BroadcastMessage, hser1] at hrun1
  simp only [broadcastAndRun, BroadcastMessage, hser2] at hrun2
  obtain ⟨hmem1, hvis1, _⟩ := runBroadcast_ok_spec henum1 hns hrun1
  have hns1 : NoSharing s1 := noSharing_of_subset (fun c hc => ((hmem1 c).mp hc).1) hns
  obtain ⟨hmem2, hvis2, _⟩ := runBroadcast_ok_spec henum2 hns1 hrun2
  obtain ⟨ch, hch, _⟩ := runBroadcast_ok_allOpen henum1 hns hrun1 h hmem
  have hin1 : h ∈ s1.clients := ((hmem2 h).mp hstill).1
  have hroom : ch.buf.length < ch.cap := by
    by_contra hfull
    exact ((hmem1 h).mp hin1).2 ⟨ch, hch, hfull⟩
  have hch1 : s1.chanOf h = some { ch with buf := ch.buf ++ [m1] } := by
    rw [hvis1 h hmem ch hch]
    simp [Chan.offer, hroom]
  have hroom1 : (ch.buf ++ [m1]).length < ch.cap := by
    by_contra hfull
    exact ((hmem2 h).mp hstill).2 ⟨_, hch1, hfull⟩
  refine ⟨ch, hch, ?_⟩
  rw [hvis2 h hin1 _ hch1]
  have hlt : ch.buf.length + 1 < ch.cap := by simpa using hroom1
  simp [Chan.offer, hlt]

/-- Witness for C8: `alice` survives two broadcasts (in two different visiting
orders) and ends with `[7]` then `[8]` behind the earlier queue; `bob` is evicted by the
second one. -/
theorem broadcast_order_witness :
    ∃ ch,
      State.chanOf
          { clients := {alice, bob}, chans := [openChan [[1]] 3, emptyChan 1, openChan [[2]] 2] }
          alice = some ch ∧
      State.chanOf
          { clients := {alice},
            chans := [openChan [[1], [7], [8]] 3, emptyChan 1, closedChan [[2], [7]] 2] }
          alice = some { buf := ch.buf ++ [[7], [8]], cap := ch.cap, closed := ch.closed } :=
  broadcast_order okMarshal [alice, bob] [bob, alice] "chat" "chat" 7 8 [7] [8]
    { clients := {alice, bob}, chans := [openChan [[1]] 3, emptyChan 1, openChan [[2]] 2] }
    { clients := {alice, bob},
      chans := [openChan [[1], [7]] 3, emptyChan 1, openChan [[2], [7]] 2] }
    { clients := {alice},
      chans := [openChan [[1], [7], [8]] 3, emptyChan 1, closedChan [[2], [7]] 2] }
    alice rfl rfl (by decide) (by decide) (by decide) (by decide) (by decide) (by decide)
    (by decide)

/-- Counterexample for C8 as stated: `alice` and `twin` share a channel of
capacity 5.  Both broadcasts succeed and `alice` is still a member, but the queue of `alice`
is the previous one followed by `[7], [7], [8], [8]`, not by `[7], [8]`. -/
theorem broadcast_order_counterexample :
    broadcastAndRun okMarshal [alice, twin] "chat" 7
        { clients := {alice, twin}, chans := [openChan [[1]] 5] } =
      .ok { clients := {alice, twin}, chans := [openChan [[1], [7], [7]] 5] } ∧
    broadcastAndRun okMarshal [twin, alice] "chat" 8
        { clients := {alice, twin}, chans := [openChan [[1], [7], [7]] 5] } =
      .ok { clients := {alice, twin}, chans := [openChan [[1], [7], [7], [8], [8]] 5] } ∧
    alice ∈ ({alice, twin} : Finset Client) ∧
    State.chanOf { clients := {alice, twin}, chans := [openChan [[1], [7], [7], [8], [8]] 5] }
        alice ≠ some (openChan ([[1]] ++ [[7], [8]]) 5) := by
  decide

/-- C9 (amended): for every finite sequence of register and unregister requests
that `Run` processes to its end without a panic, starting from the empty hub of
`NewHub`, and every handle `h`: in the state reached at the end, `h` is a member if
and only if the sequence contains an operation on `h` and the last such operation is
a register.  `Run` does process the sequence to its end, with that result, whenever
the channels named by the unregister requests are open at the start and pairwise
distinct. -/
theorem membership_invariant (chans : List Chan) (reqs : List Request) (h : Client)
    (hm : ∀ r ∈ reqs, r.isMembership = true) :
    (∀ s, Run reqs (NewHub chans) = .ok s →
      (h ∈ s.clients ↔ lastIsRegister h reqs = true)) ∧
    ((unregisterRefs reqs).Nodup →
      (∀ i ∈ unregisterRefs reqs, ∃ ch, chans[i]? = some ch ∧ ch.closed = false) →
      ∃ s, Run reqs (NewHub chans) = .ok s ∧
        (h ∈ s.clients ↔ lastIsRegister h reqs = true)) := by
  have hpart : ∀ s, Run reqs (NewHub chans) = .ok s →
      (h ∈ s.clients ↔ lastIsRegister h reqs = true) := by
    induction reqs using List.reverseRecOn with
    | nil =>
      intro s hrun
      simp only [Run] at hrun
      cases hrun
      simp [NewHub, lastIsRegister]
    | append_singleton reqs r ih =>
      intro s hrun
      rw [Run_append] at hrun
      cases h0 : Run reqs (NewHub chans) with
      | error e => simp [h0] at hrun
      | ok s0 =>
        simp only [h0] at hrun
        have hr : r.isMembership = true := hm r (by simp)
        have ih0 := ih (fun q hq => hm q (by simp [hq])) s0 h0
        rw [runTurn_membership h hr hrun, lastIsRegister_append]
        by_cases hon : r.isOn h = true
        · simp only [hon, if_true]
          cases r <;> simp
        · simp only [hon, if_false]
          exact ih0
  refine ⟨hpart, fun hnd hopen => ?_⟩
  obtain ⟨s, hrun⟩ := Run_membership_total reqs (NewHub chans) hm hnd hopen
  exact ⟨s, hrun, hpart s hrun⟩

/-- Witness for C9: after register, register, unregister, unregister, register the
handle `alice` is a member (last operation: register) and `bob` is not; the run
reaches its end because the two channels it closes are open at the start and
distinct. -/
theorem membership_invariant_witness :
    (alice ∈ ({alice} : Finset Client) ↔
      lastIsRegister alice
        [.register alice, .register bob, .unregister alice, .unregister bob, .register alice] =
        true) ∧
    (bob ∈ ({alice} : Finset Client) ↔
      lastIsRegister bob
        [.register alice, .register bob, .unregister alice, .unregister bob, .register alice] =
        true) ∧
    (∃ s, Run
        [.register alice, .register bob, .unregister alice, .unregister bob, .register alice]
        (NewHub [emptyChan 1, emptyChan 1, emptyChan 2]) = .ok s ∧
      (alice ∈ s.clients ↔
        lastIsRegister alice
          [.register alice, .register bob, .unregister alice, .unregister bob,
            .register alice] = true)) :=
  ⟨(membership_invariant [emptyChan 1, emptyChan 1, emptyChan 2]
      [.register alice, .register bob, .unregister alice, .unregister bob, .register alice]
      alice (by decide)).1
      { clients := {alice}, chans := [closedChan [] 1, emptyChan 1, closedChan [] 2] }
      (by decide),
   (membership_invariant [emptyChan 1, emptyChan 1, emptyChan 2]
      [.register alice, .register bob, .unregister alice, .unregister bob, .register alice]
      bob (by decide)).1
      { clients := {alice}, chans := [closedChan [] 1, emptyChan 1, closedChan [] 2] }
      (by decide),
   (membership_invariant [emptyChan 1, emptyChan 1, emptyChan 2]
      [.register alice, .register bob, .unregister alice, .unregister bob, .register alice]
      alice (by decide)).2 (by decide)
      (by
        intro i hi
        simp only [unregisterRefs, List.mem_cons, List.mem_singleton, List.not_mem_nil,
          or_false] at hi
        rcases hi with rfl | rfl
        · exact ⟨emptyChan 1, rfl, rfl⟩
        · exact ⟨emptyChan 2, rfl, rfl⟩)⟩

/-- Counterexample for C9 as stated (every sequence): register, unregister, register,
unregister of `alice` followed by a register of `bob`.  The second unregister closes
the channel of `alice` a second time and panics, so the register of `bob` is never
processed: there is no state in which `bob` is a member, although the sequence
contains an operation on `bob` and the last one is a register. -/
theorem membership_invariant_counterexample :
    (∀ r ∈ [Request.register alice, .unregister alice, .register alice, .unregister alice,
        .register bob], r.isMembership = true) ∧
    lastIsRegister bob
      [.register alice, .unregister alice, .register alice, .unregister alice,
        .register bob] = true ∧
    Run [.register alice, .unregister alice, .register alice]
        (NewHub [emptyChan 1, emptyChan 1, emptyChan 2]) =
      .ok { clients := {alice}, chans := [closedChan [] 1, emptyChan 1, emptyChan 2] } ∧
    Run [.register alice, .unregister alice, .register alice, .unregister alice,
        .register bob]
        (NewHub [emptyChan 1, emptyChan 1, emptyChan 2]) = .error .closeOfClosed := by
  decide

/-- C10 (amended): for every hub state in which distinct registered handles have
distinct delivery channels and every single step (the unregister case of `Run`, the
broadcast case of `Run`, `BroadcastToUser`) that completes, a handle whose delivery
channel was open before the step and is closed after it is absent from the
membership set after that step. -/
theorem close_then_delete {α : Type} (marshal : String → α → Option Payload)
    (message : Payload) (order : List Client) (userID messageType : String) (data : α)
    (client : Client) (s s1 : State) (h : Client)
    (hns : NoSharing s) (hcl : ClosedBetween s s1 h) :
    (runUnregister s client = .ok s1 → h ∉ s1.clients) ∧
    (Enumerates order s → runBroadcast message order s = .ok s1 → h ∉ s1.clients) ∧
    (Enumerates order s → BroadcastToUser marshal order userID messageType data s = .ok s1 →
      h ∉ s1.clients) := by
  refine ⟨?_, ?_, ?_⟩
  · intro hrun hin
    obtain ⟨⟨ch, hch, hopen⟩, ⟨ch1, hch1, hclosed⟩⟩ := hcl
    simp only [runUnregister] at hrun
    by_cases hc : client ∈ s.clients
    · simp only [hc, if_true] at hrun
      cases hclose : closeChan s.chans client.send with
      | error e => simp [hclose] at hrun
      | ok chans =>
        simp only [hclose] at hrun
        cases hrun
        simp only [Finset.mem_erase] at hin
        have hne : client.send ≠ h.send := fun heq => hin.1 (hns h hin.2 client hc heq.symm)
        unfold closeChan at hclose
        cases hcc : s.chans[client.send]? with
        | none => simp [hcc] at hclose
        | some cch =>
          simp only [hcc] at hclose
          split at hclose
          · cases hclose
          · cases hclose
            simp only [State.chanOf, List.getElem?_set_ne hne] at hch1
            simp only [State.chanOf] at hch
            rw [hch] at hch1
            cases hch1
            rw [hopen] at hclosed
            exact Bool.false_ne_true hclosed
    · simp only [hc, if_false] at hrun
      cases hrun
      rw [hch] at hch1
      cases hch1
      rw [hopen] at hclosed
      exact Bool.false_ne_true hclosed
  · intro henum hrun
    rw [runBroadcast_eq_fan] at hrun
    exact fan_closed_evicted henum hns hrun hcl
  · intro henum hrun
    unfold BroadcastToUser at hrun
    cases hser : marshal messageType data with
    | none =>
      simp only [hser] at hrun
      cases hrun
      obtain ⟨⟨ch, hch, hopen⟩, ⟨ch1, hch1, hclosed⟩⟩ := hcl
      rw [hch] at hch1
      cases hch1
      rw [hopen] at hclosed
      exact absurd hclosed Bool.false_ne_true
    | some jsonData =>
      simp only [hser] at hrun
      rw [userLoop_eq_fan] at hrun
      exact fan_closed_evicted henum hns hrun hcl

/-- Witness for C10: the broadcast pass closes the full channel of `alice`, and
`alice` is no longer a member afterwards. -/
theorem close_then_delete_witness :
    runBroadcast [7] [alice, bob]
        { clients := {alice, bob}, chans := [openChan [[1]] 1, emptyChan 1, emptyChan 2] } =
      .ok { clients := {bob}, chans := [closedChan [[1]] 1, emptyChan 1, openChan [[7]] 2] } ∧
    alice ∉ ({bob} : Finset Client) :=
  ⟨by decide,
   (close_then_delete okMarshal [7] [alice, bob] "u1" "chat" 7 alice
      { clients := {alice, bob}, chans := [openChan [[1]] 1, emptyChan 1, emptyChan 2] }
      { clients := {bob}, chans := [closedChan [[1]] 1, emptyChan 1, openChan [[7]] 2] }
      alice (by decide)
      ⟨⟨openChan [[1]] 1, rfl, rfl⟩, ⟨closedChan [[1]] 1, rfl, rfl⟩⟩).2.1
      (by decide) (by decide)⟩

/-- Counterexample for C10 as stated: `alice` and `twin` share a channel.
Unregistering `alice` closes it, so the channel of `twin` was open before the step
and is closed after it, yet `twin` is still a member. -/
theorem close_then_delete_counterexample :
    runUnregister { clients := {alice, twin}, chans := [emptyChan 1] } alice =
      .ok { clients := {twin}, chans := [closedChan [] 1] } ∧
    ClosedBetween { clients := {alice, twin}, chans := [emptyChan 1] }
      { clients := {twin}, chans := [closedChan [] 1] } twin ∧
    twin ∈ ({twin} : Finset Client) :=
  ⟨by decide, ⟨⟨emptyChan 1, rfl, rfl⟩, ⟨closedChan [] 1, rfl, rfl⟩⟩, by decide⟩


/-- C11 (amended): for every sequence of register, unregister, broadcast and
`BroadcastToUser` steps starting from the empty hub in which every register step
brings a channel that no other register step of the sequence brings (every handle is
registered at most once and distinct handles have distinct delivery channels), no
step attempts to enqueue a payload on a channel that an earlier step of the sequence
has closed.  Each pass over the clients visits, in any order, the clients registered
at that point. -/
theorem no_write_after_close {α : Type} (marshal : String → α → Option Payload)
    (steps : List (Step α)) (chans : List Chan)
    (hord : ordersValid marshal steps (NewHub chans) = true)
    (hnd : (registeredRefs steps).Nodup) :
    noWriteAfterClose marshal [] steps (NewHub chans) = true :=
  noWrite_inv marshal steps (NewHub chans) [] hord hnd
    (fun c hc => by simp [NewHub] at hc) (fun _ _ => by simp) (fun _ _ => by simp)
    (fun _ _ c hc => by simp [NewHub] at hc)

/-- Witness for C11: the run `contractRun` closes the channels of `alice` and of
`bob` on the way and never attempts a send on a channel closed before. -/
theorem no_write_after_close_witness :
    noWriteAfterClose okMarshal [] contractRun (NewHub contractHeap) = true ∧
    runSteps okMarshal contractRun (NewHub contractHeap) =
      .ok { clients := ∅,
            chans := [closedChan [[7]] 1, emptyChan 1, closedChan [[7], [8], [9]] 3] } :=
  ⟨no_write_after_close okMarshal contractRun contractHeap (by decide) (by decide),
   by decide⟩

/-- Counterexample for C11 as stated (every sequence).  In `reRegisterRun` the
unregister step closes the channel of `alice`, `alice` is registered again, and the
broadcast that follows attempts the send on the closed channel (and panics).  In
`sharedRun` each handle is registered once, but unregistering `alice` closes the
channel that `twin` also holds, and the broadcast attempts the send to `twin`. -/
theorem no_write_after_close_counterexample :
    (ordersValid okMarshal reRegisterRun (NewHub [emptyChan 1]) = true ∧
      noWriteAfterClose okMarshal [] reRegisterRun (NewHub [emptyChan 1]) = false ∧
      runSteps okMarshal reRegisterRun (NewHub [emptyChan 1]) = .error .sendOnClosed) ∧
    (ordersValid okMarshal sharedRun (NewHub [emptyChan 1]) = true ∧
      noWriteAfterClose okMarshal [] sharedRun (NewHub [emptyChan 1]) = false ∧
      runSteps okMarshal sharedRun (NewHub [emptyChan 1]) = .error .sendOnClosed) := by
  decide

/-- C12 (amended): for every sequence of steps and every handle `h` that is not in
the membership set (never registered, unregistered or evicted), no later step other
than a register step for `h` makes `h` a member; a register step for `h` always
succeeds and makes `h` a member again, whether or not `h` was removed before. -/
theorem removed_until_registered {α : Type} (marshal : String → α → Option Payload)
    (h : Client) :
    (∀ (steps : List (Step α)) (s s1 : State), h ∉ s.clients →
      (∀ st ∈ steps, st.isRegisterOf h = false) →
      runSteps marshal steps s = .ok s1 → h ∉ s1.clients) ∧
    (∀ s : State, step marshal s (.turn (.register h)) = .ok (runRegister s h) ∧
      h ∈ (runRegister s h).clients) := by
  refine ⟨?_, fun s => ⟨rfl, by simp [runRegister]⟩⟩
  intro steps
  induction steps with
  | nil =>
    intro s s1 hout _ hrun
    simp only [runSteps] at hrun
    cases hrun
    exact hout
  | cons st rest ih =>
    intro s s1 hout hno hrun
    simp only [runSteps] at hrun
    cases hst : step marshal s st with
    | error e => simp [hst] at hrun
    | ok s2 =>
      simp only [hst] at hrun
      refine ih s2 s1 ?_ (fun x hx => hno x (List.mem_cons_of_mem _ hx)) hrun
      intro hin
      rcases step_clients marshal hst h hin with h0 | hreg
      · exact hout h0
      · rw [hno st (List.mem_cons_self _ _)] at hreg
        exact Bool.noConfusion hreg

/-- Witness for C12: once `alice` is evicted, an unregister, a broadcast and a
targeted delivery leave `alice` out. -/
theorem removed_until_registered_witness :
    alice ∉ ({bob} : Finset Client) :=
  (removed_until_registered okMarshal alice).1
    [.turn (.unregister alice), .turn (.broadcast [7] [bob]), .toUser [bob] "u1" "chat" 8]
    { clients := {bob}, chans := [closedChan [[1]] 1, emptyChan 1, emptyChan 3] }
    { clients := {bob}, chans := [closedChan [[1]] 1, emptyChan 1, openChan [[7]] 3] }
    (by decide) (by decide) (by decide)

/-- Counterexample for C12 as stated: `alice` is registered and unregistered (first
run) or registered with a full channel and evicted by a broadcast (second run); in
both cases a later register step makes `alice` a member again. -/
theorem removed_until_registered_counterexample :
    (runSteps okMarshal [.turn (.register alice), .turn (.unregister alice)]
        (NewHub [emptyChan 1]) = .ok { clients := ∅, chans := [closedChan [] 1] } ∧
      runSteps okMarshal
        [.turn (.register alice), .turn (.unregister alice), .turn (.register alice)]
        (NewHub [emptyChan 1]) = .ok { clients := {alice}, chans := [closedChan [] 1] } ∧
      alice ∈ ({alice} : Finset Client)) ∧
    (runSteps okMarshal [.turn (.register alice), .turn (.broadcast [7] [alice])]
        (NewHub [openChan [[1]] 1]) = .ok { clients := ∅, chans := [closedChan [[1]] 1] } ∧
      runSteps okMarshal
        [.turn (.register alice), .turn (.broadcast [7] [alice]), .turn (.register alice)]
        (NewHub [openChan [[1]] 1]) =
        .ok { clients := {alice}, chans := [closedChan [[1]] 1] }) := by
  decide


/-- C13: for every hub state and every (messageType, data) whose envelope cannot be
encoded, `BroadcastMessage` hands no payload to the dispatch loop and
`BroadcastToUser` returns before its loop: the state (membership set and every
channel) is returned as it was, and no send and no close is attempted on any
channel. -/
theorem serialization_failure_atomic {α : Type} (marshal : String → α → Option Payload)
    (order : List Client) (userID messageType : String) (data : α) (s : State)
    (hfail : marshal messageType data = none) :
    BroadcastMessage marshal messageType data = none ∧
    broadcastAndRun marshal order messageType data s = .ok s ∧
    BroadcastToUser marshal order userID messageType data s = .ok s ∧
    stepSends marshal s (.toUser order userID messageType data) = [] ∧
    stepCloses marshal s (.toUser order userID messageType data) = [] := by
  simp [BroadcastMessage, broadcastAndRun, BroadcastToUser, stepSends, stepCloses, hfail]

/-- Witness for C13: with the failing encoder a state with a full and a closed
channel is returned untouched by both entry points. -/
theorem serialization_failure_atomic_witness :
    BroadcastMessage failMarshal "chat" 7 = none ∧
    BroadcastToUser failMarshal [alice, alice2] "u1" "chat" 7
        { clients := {alice, alice2}, chans := [openChan [[1]] 1, closedChan [] 1] } =
      .ok { clients := {alice, alice2}, chans := [openChan [[1]] 1, closedChan [] 1] } :=
  have h := serialization_failure_atomic failMarshal [alice, alice2] "u1" "chat" 7
    { clients := {alice, alice2}, chans := [openChan [[1]] 1, closedChan [] 1] } rfl
  ⟨h.1, h.2.2.1⟩

/-- C14 (amended): for every (messageType, data) whose envelope cannot be encoded,
`BroadcastMessage` and `BroadcastToUser` each write one line to the log and return
normally; for input that encodes they write no such line.  Both functions are
declared without a result, so nothing is returned to the caller on either path. -/
theorem serialization_failure_logged {α : Type} (marshal : String → α → Option Payload)
    (order : List Client) (userID messageType : String) (data : α) (s : State) :
    (marshal messageType data = none →
      broadcastMessageLog marshal messageType data = [.marshalBroadcast] ∧
      broadcastToUserLog marshal messageType data = [.marshalUser] ∧
      broadcastToUserReturn marshal order userID messageType data s = .ok ()) ∧
    (∀ jsonData, marshal messageType data = some jsonData →
      broadcastMessageLog marshal messageType data = [] ∧
      broadcastToUserLog marshal messageType data = []) := by
  constructor
  · intro hfail
    simp [broadcastMessageLog, broadcastToUserLog, broadcastToUserReturn, BroadcastToUser,
      hfail]
  · intro jsonData hser
    simp [broadcastMessageLog, broadcastToUserLog, hser]

/-- Witness for C14: the failing encoder leaves one log line per call and a plain
return. -/
theorem serialization_failure_logged_witness :
    broadcastMessageLog failMarshal "chat" 7 = [.marshalBroadcast] ∧
    broadcastToUserLog failMarshal "chat" 7 = [.marshalUser] ∧
    broadcastToUserReturn failMarshal [alice] "u1" "chat" 7
      { clients := {alice}, chans := [emptyChan 1] } = .ok () :=
  (serialization_failure_logged failMarshal [alice] "u1" "chat" 7
    { clients := {alice}, chans := [emptyChan 1] }).1 rfl

/-- Counterexample for C14 as stated: the same input is rejected by one encoder and
accepted by another, and in both cases the caller of `BroadcastMessage` and of
`BroadcastToUser` gets back the same thing, a plain return without a value. -/
theorem serialization_failure_logged_counterexample :
    failMarshal "chat" 7 = none ∧ okMarshal "chat" 7 = some [7] ∧
    broadcastMessageReturn failMarshal "chat" 7 = broadcastMessageReturn okMarshal "chat" 7 ∧
    broadcastToUserReturn failMarshal [alice] "u1" "chat" 7
        { clients := {alice}, chans := [emptyChan 1] } =
      broadcastToUserReturn okMarshal [alice] "u1" "chat" 7
        { clients := {alice}, chans := [emptyChan 1] } := by
  decide

/-- C15 (code bug): the claim is that no two operations on the membership set run
at the same time.  Evaluation at the failing input, a hub whose one client `alice`
(token `u1`) has a full channel.  The broadcast turn of `Run` and a call of
`BroadcastToUser` for `u1`, which is no request to `Run` but runs its loop in the
goroutine of its caller, each close the channel of `alice` and delete `alice` from
the map, and both do so holding only the read lock of the `sync.RWMutex`, which two
goroutines can hold together.  Each of them finds the send not ready and takes the
`default` branch; the `close` of whichever comes second is a close of a closed
channel. -/
theorem single_serialization_point_failing_input :
    runTurn { clients := {alice}, chans := [openChan [[1]] 1] } (.broadcast [7] [alice]) =
      .ok { clients := ∅, chans := [closedChan [[1]] 1] } ∧
    BroadcastToUser okMarshal [alice] "u1" "chat" 7
        { clients := {alice}, chans := [openChan [[1]] 1] } =
      .ok { clients := ∅, chans := [closedChan [[1]] 1] } ∧
    trySend [openChan [[1]] 1] alice.send [7] = .ok none ∧
    closeChan [openChan [[1]] 1] alice.send = .ok [closedChan [[1]] 1] ∧
    closeChan [closedChan [[1]] 1] alice.send = .error .closeOfClosed := by
  decide

/-- C16: for every hub state, identity token and payload, the loop of
`BroadcastToUser` gives exactly the outcome of the broadcast loop of `Run` taken
over only the clients that carry the token (in the same visiting order), the other
clients not being visited; and when every registered handle carries the token,
`BroadcastToUser` and `BroadcastMessage` followed by the broadcast turn give the same
outcome. -/
theorem broadcastToUser_refines_broadcast {α : Type}
    (marshal : String → α → Option Payload) (order : List Client)
    (userID messageType : String) (data : α) (s : State) :
    (∀ jsonData, userLoop userID jsonData order s =
      broadcastRestricted userID jsonData order s) ∧
    (∀ jsonData, marshal messageType data = some jsonData →
      BroadcastToUser marshal order userID messageType data s =
        broadcastRestricted userID jsonData order s) ∧
    (Enumerates order s → (∀ c ∈ s.clients, c.userID = userID) →
      BroadcastToUser marshal order userID messageType data s =
        broadcastAndRun marshal order messageType data s) := by
  refine ⟨fun m => userLoop_eq_restricted userID m order s, ?_, ?_⟩
  · intro m hser
    simp only [BroadcastToUser, hser]
    exact userLoop_eq_restricted userID m order s
  · intro henum hall
    simp only [BroadcastToUser, broadcastAndRun, BroadcastMessage]
    cases marshal messageType data with
    | none => rfl
    | some m =>
      simp only
      rw [userLoop_eq_restricted]
      unfold broadcastRestricted
      have hfilter : order.filter (fun c => decide (c.userID = userID)) = order := by
        rw [List.filter_eq_self]
        intro c hc
        simp [hall c ((henum.2 c).mp hc)]
      rw [hfilter]

/-- Witness for C16: with `alice` and `alice2`, both of user `u1`, one of them full,
the targeted delivery to `u1` and the broadcast end in the same state. -/
theorem broadcastToUser_refines_broadcast_witness :
    BroadcastToUser okMarshal [alice, alice2] "u1" "chat" 7
        { clients := {alice, alice2}, chans := [openChan [[1]] 1, emptyChan 1] } =
      broadcastAndRun okMarshal [alice, alice2] "chat" 7
        { clients := {alice, alice2}, chans := [openChan [[1]] 1, emptyChan 1] } :=
  (broadcastToUser_refines_broadcast okMarshal [alice, alice2] "u1" "chat" 7
    { clients := {alice, alice2}, chans := [openChan [[1]] 1, emptyChan 1] }).2.2
    (by decide) (by decide)


/-- C17 (amended): for every hub state in which distinct registered handles have
distinct delivery channels and the delivery channel of every registered handle is
open, every payload and every two visiting orders of the membership set, the
broadcast pass completes in both orders with the same state; and so does
`BroadcastToUser`, for which only the channels of the handles with its identity
token need to be open.  Which handles receive the payload and which are evicted
does not depend on the order. -/
theorem fan_out_order_independent {α : Type} (marshal : String → α → Option Payload)
    (order1 order2 : List Client) (message : Payload) (userID messageType : String)
    (data : α) (s : State)
    (hns : NoSharing s) (h1 : Enumerates order1 s) (h2 : Enumerates order2 s) :
    (AllOpen s →
      ∃ s1, runBroadcast message order1 s = .ok s1 ∧
        runBroadcast message order2 s = .ok s1) ∧
    ((∀ c ∈ s.clients, c.userID = userID →
        ∃ ch, s.chanOf c = some ch ∧ ch.closed = false) →
      ∃ s1, BroadcastToUser marshal order1 userID messageType data s = .ok s1 ∧
        BroadcastToUser marshal order2 userID messageType data s = .ok s1) := by
  constructor
  · intro hopen
    obtain ⟨s1, r1, r2⟩ := fan_complete_indep (fun _ => true) message hns h1 h2
      (fun c hc _ => hopen c hc)
    exact ⟨s1, by rw [runBroadcast_eq_fan]; exact r1, by rw [runBroadcast_eq_fan]; exact r2⟩
  · intro hopen
    unfold BroadcastToUser
    cases marshal messageType data with
    | none => exact ⟨s, rfl, rfl⟩
    | some jsonData =>
      obtain ⟨s1, r1, r2⟩ :=
        fan_complete_indep (fun c => decide (c.userID = userID)) jsonData hns h1 h2
          (fun c hc hp => hopen c hc (of_decide_eq_true hp))
      exact ⟨s1, by simp only; rw [userLoop_eq_fan]; exact r1,
        by simp only; rw [userLoop_eq_fan]; exact r2⟩

/-- Witness for C17: three clients, one of them full, visited in two different
orders; both passes end in the same state. -/
theorem fan_out_order_independent_witness :
    ∃ s1,
      runBroadcast [7] [alice, alice2, bob]
          { clients := {alice, alice2, bob},
            chans := [openChan [[1]] 1, emptyChan 1, emptyChan 3] } = .ok s1 ∧
      runBroadcast [7] [bob, alice2, alice]
          { clients := {alice, alice2, bob},
            chans := [openChan [[1]] 1, emptyChan 1, emptyChan 3] } = .ok s1 :=
  (fan_out_order_independent okMarshal [alice, alice2, bob] [bob, alice2, alice] [7]
    "u1" "chat" 7
    { clients := {alice, alice2, bob},
      chans := [openChan [[1]] 1, emptyChan 1, emptyChan 3] }
    (by decide) (by decide) (by decide)).1
    (by
      intro c hc
      simp only [Finset.mem_insert, Finset.mem_singleton] at hc
      rcases hc with rfl | rfl | rfl
      · exact ⟨openChan [[1]] 1, rfl, rfl⟩
      · exact ⟨emptyChan 1, rfl, rfl⟩
      · exact ⟨emptyChan 3, rfl, rfl⟩)

/-- Counterexample for C17 as stated (distinct channels only).  First state: `alice`
has a closed channel and `bob` an open one.  Both visiting orders panic on the send
to `alice`, but the pass that visits `bob` first has delivered the payload to `bob`
before it panics, and the other pass has not attempted it.  Second state: `alice`
has a closed channel and `bob` a nil channel; one order panics with a send on a
closed channel, the other with a close of a nil channel. -/
theorem fan_out_order_independent_counterexample :
    (NoSharing closedAliceState ∧
      Enumerates [alice, bob] closedAliceState ∧
      Enumerates [bob, alice] closedAliceState ∧
      runBroadcast [7] [alice, bob] closedAliceState = .error .sendOnClosed ∧
      runBroadcast [7] [bob, alice] closedAliceState = .error .sendOnClosed ∧
      loopSends (fun _ => true) [7] [alice, bob] closedAliceState = [0] ∧
      loopSends (fun _ => true) [7] [bob, alice] closedAliceState = [2, 0] ∧
      deliver [7] closedAliceState bob =
        .ok { clients := {alice, bob},
              chans := [closedChan [] 1, emptyChan 1, openChan [[7]] 2] }) ∧
    (NoSharing nilBobState ∧
      runBroadcast [7] [alice, bob] nilBobState = .error .sendOnClosed ∧
      runBroadcast [7] [bob, alice] nilBobState = .error .closeOfNil) := by
  decide

/-- C18 (amended): for every sequence of register, unregister, broadcast and
`BroadcastToUser` steps starting from the empty hub in which every register step
brings a channel that no other register step of the sequence brings (every handle is
registered at most once and distinct handles have distinct delivery channels) and
that channel is open at the start (only the registry closes channels), every prefix
of the sequence runs without a panic and reaches a state in which the channel of
every member is open: no step closes a closed or nil channel and no step sends on a
closed channel.  Each pass over the clients visits, in any order, the clients
registered at that point. -/
theorem no_panic_under_contract {α : Type} (marshal : String → α → Option Payload)
    (steps : List (Step α)) (chans : List Chan)
    (hord : ordersValid marshal steps (NewHub chans) = true)
    (hnd : (registeredRefs steps).Nodup)
    (hopen : ∀ r ∈ registeredRefs steps, ∃ ch, chans[r]? = some ch ∧ ch.closed = false) :
    ∀ pre post, steps = pre ++ post →
      ∃ s, runSteps marshal pre (NewHub chans) = .ok s ∧ AllOpen s := by
  intro pre post hsplit
  subst hsplit
  rw [registeredRefs_append] at hnd hopen
  obtain ⟨s, hrun, hall, _⟩ := run_safe marshal pre (NewHub chans)
    (ordersValid_of_append marshal pre post _ hord) (List.Nodup.of_append_left hnd)
    (fun c hc => by simp [NewHub] at hc) (fun c hc => by simp [NewHub] at hc)
    (fun _ _ c hc => by simp [NewHub] at hc)
    (fun r hr => hopen r (List.mem_append_left _ hr))
  exact ⟨s, hrun, hall⟩

/-- Witness for C18: the run `contractRun` completes; the unregister of `alice`
after its eviction is a no-op and nothing panics. -/
theorem no_panic_under_contract_witness :
    ∃ s, runSteps okMarshal contractRun (NewHub contractHeap) = .ok s ∧ AllOpen s :=
  no_panic_under_contract okMarshal contractRun contractHeap (by decide) (by decide)
    (by
      intro r hr
      simp only [contractRun, registeredRefs, List.mem_cons, List.mem_singleton,
        List.not_mem_nil, or_false] at hr
      rcases hr with rfl | rfl
      · exact ⟨emptyChan 1, rfl, rfl⟩
      · exact ⟨emptyChan 3, rfl, rfl⟩)
    contractRun [] (by simp)

/-- Counterexample for C18 as stated: in `sharedRun` the handles `alice` and `twin`
are registered once each, both while their channel is open, and only the registry
closes it; still the broadcast after the unregister of `alice` sends on the closed
channel that `twin` holds. -/
theorem no_panic_under_contract_counterexample :
    alice ≠ twin ∧
    runSteps okMarshal [.turn (.register alice), .turn (.register twin)]
        (NewHub [emptyChan 1]) = .ok { clients := {twin, alice}, chans := [emptyChan 1] } ∧
    ordersValid okMarshal sharedRun (NewHub [emptyChan 1]) = true ∧
    runSteps okMarshal sharedRun (NewHub [emptyChan 1]) = .error .sendOnClosed := by
  decide

/-- C19: for every hub state and every handle `h` that is already a member, the
register turn returns the very same state (same membership set, same count, same
channels); registering twice gives the same state as registering once. -/
theorem register_duplicate_absorbed (s : State) (h : Client) :
    (h ∈ s.clients → runRegister s h = s ∧ (runRegister s h).count = s.count) ∧
    runRegister (runRegister s h) h = runRegister s h := by
  constructor
  · intro hmem
    have : runRegister s h = s := by
      cases s
      simp only [runRegister, State.mk.injEq, and_true]
      exact Finset.insert_eq_of_mem hmem
    exact ⟨this, by rw [this]⟩
  · simp [runRegister]

/-- Witness for C19: registering `alice` a second time changes nothing. -/
theorem register_duplicate_absorbed_witness :
    runRegister { clients := {alice, bob}, chans := [emptyChan 1] } alice =
      { clients := {alice, bob}, chans := [emptyChan 1] } :=
  ((register_duplicate_absorbed { clients := {alice, bob}, chans := [emptyChan 1] } alice).1
    (by decide)).1

/-- C20 (amended): for every hub state in which the delivery channel of every
registered handle is open and distinct registered handles have distinct delivery
channels, every payload and every registered handle whose channel is full, the
broadcast pass completes and has evicted the handle and closed its channel, which
holds exactly the payloads it held before, in the same order, without the new
payload; the same holds for a `BroadcastToUser` for the token of that handle, for
which only the handles with that token need open, unshared channels.  Every step
that completes, and every single delivery attempt inside a pass, keeps every queue
within its capacity. -/
theorem eviction_drops_only_new {α : Type} (marshal : String → α → Option Payload)
    (order : List Client) (message : Payload) (userID messageType : String) (data : α)
    (s : State) :
    (∀ (h : Client) (ch : Chan), Enumerates order s → AllOpen s → NoSharing s →
      h ∈ s.clients → s.chanOf h = some ch → ¬ ch.buf.length < ch.cap →
      ∃ s1, runBroadcast message order s = .ok s1 ∧ h ∉ s1.clients ∧
        s1.chanOf h = some { buf := ch.buf, cap := ch.cap, closed := true }) ∧
    (∀ (h : Client) (ch : Chan), Enumerates order s →
      (∀ c ∈ s.clients, c.userID = userID →
        ∃ chc, s.chanOf c = some chc ∧ chc.closed = false) →
      (∀ c ∈ s.clients, c.userID = userID → ∀ d ∈ s.clients, d.send = c.send → d = c) →
      marshal messageType data = some message →
      h ∈ s.clients → h.userID = userID → s.chanOf h = some ch →
      ¬ ch.buf.length < ch.cap →
      ∃ s1, BroadcastToUser marshal order userID messageType data s = .ok s1 ∧
        h ∉ s1.clients ∧
        s1.chanOf h = some { buf := ch.buf, cap := ch.cap, closed := true }) ∧
    (∀ (st : Step α) (s1 : State), CapOk s → step marshal s st = .ok s1 → CapOk s1) ∧
    (∀ (client : Client) (s1 : State), CapOk s → deliver message s client = .ok s1 →
      CapOk s1) := by
  refine ⟨?_, ?_, ?_, ?_⟩
  · intro h ch henum hopen hns hmem hch hfull
    obtain ⟨s1, hrun, _⟩ := fan_spec (fun _ => true) message order s henum.1
      (fun c hc _ => hopen c ((henum.2 c).mp hc))
      (fun c hc d hd _ _ heq => hns c ((henum.2 c).mp hc) d ((henum.2 d).mp hd) heq)
    obtain ⟨hout, hq⟩ := fan_evicts_full henum hrun hmem rfl hch hfull
    exact ⟨s1, by rw [runBroadcast_eq_fan]; exact hrun, hout, hq⟩
  · intro h ch henum hopen hown hser hmem hu hch hfull
    obtain ⟨s1, hrun, _⟩ :=
      fan_spec (fun c => decide (c.userID = userID)) message order s henum.1
        (fun c hc hp => hopen c ((henum.2 c).mp hc) (of_decide_eq_true hp))
        (fun c hc d hd _ hpd heq =>
          hown d ((henum.2 d).mp hd) (of_decide_eq_true hpd) c ((henum.2 c).mp hc) heq)
    obtain ⟨hout, hq⟩ := fan_evicts_full henum hrun hmem (by simp [hu]) hch hfull
    refine ⟨s1, ?_, hout, hq⟩
    simp only [BroadcastToUser, hser]
    rw [userLoop_eq_fan]
    exact hrun
  · intro st s1 hcap hrun
    exact step_capOk marshal hrun hcap
  · intro client s1 hcap hd
    exact deliver_capOk hd hcap

/-- Witness for C20: `alice` holds `[1], [2]` in a channel of capacity 2; the
broadcast of `[7]` completes, `alice` is evicted and the closed channel still holds
`[1], [2]`. -/
theorem eviction_drops_only_new_witness :
    ∃ s1,
      runBroadcast [7] [bob, alice]
          { clients := {alice, bob},
            chans := [openChan [[1], [2]] 2, emptyChan 1, emptyChan 3] } = .ok s1 ∧
      alice ∉ s1.clients ∧
      s1.chanOf alice = some { buf := [[1], [2]], cap := 2, closed := true } :=
  (eviction_drops_only_new okMarshal [bob, alice] [7] "u1" "chat" 7
    { clients := {alice, bob},
      chans := [openChan [[1], [2]] 2, emptyChan 1, emptyChan 3] }).1
    alice (openChan [[1], [2]] 2) (by decide)
    (by
      intro c hc
      simp only [Finset.mem_insert, Finset.mem_singleton] at hc
      rcases hc with rfl | rfl
      · exact ⟨openChan [[1], [2]] 2, rfl, rfl⟩
      · exact ⟨emptyChan 3, rfl, rfl⟩)
    (by decide) (by decide) rfl (by decide)

/-- Counterexample for C20 as stated (every hub state).  First, `alice` is registered
with a channel that is full and already closed: the pass panics on the send and
`alice` is not evicted.  Second, `alice` and `twin` hold the same full open channel:
the pass evicts the one it visits first and panics on the send to the other, who is
not evicted.  The same two states make `BroadcastToUser` panic. -/
theorem eviction_drops_only_new_counterexample :
    (State.chanOf { clients := {alice}, chans := [closedChan [[1]] 1] } alice =
        some (closedChan [[1]] 1) ∧
      runBroadcast [7] [alice] { clients := {alice}, chans := [closedChan [[1]] 1] } =
        .error .sendOnClosed ∧
      BroadcastToUser okMarshal [alice] "u1" "chat" 7
        { clients := {alice}, chans := [closedChan [[1]] 1] } = .error .sendOnClosed) ∧
    (State.chanOf { clients := {alice, twin}, chans := [openChan [[1]] 1] } twin =
        some (openChan [[1]] 1) ∧
      Enumerates [alice, twin] { clients := {alice, twin}, chans := [openChan [[1]] 1] } ∧
      runBroadcast [7] [alice, twin] { clients := {alice, twin}, chans := [openChan [[1]] 1] } =
        .error .sendOnClosed ∧
      runBroadcast [7] [twin, alice] { clients := {alice, twin}, chans := [openChan [[1]] 1] } =
        .error .sendOnClosed) := by
  decide

end Websocket
